import Mathlib

/-!
# Bilevel-Differential-Grasp-Optimization: scalar backend, geometry cells, drivers

A shallow embedding of

* `DistanceExact/Utils/ScalarQ.cpp` (the `__float128` scalar backend),
* `CommonFile/geom/CylinderGeomCell.h`, `CommonFile/geom/CompositeGeomCell.h`
  (declarations of the cylinder and composite cells),
* `Main/mainEvaluate.cpp` (the evaluation driver: argument handling, initial
  parameters), and the cache-file path it shares with `Main/mainGraspOptimize.cpp`
  and `Main/mainPointCloudObject.cpp`,

together with the properties the specification states about them.
-/

namespace Grasp

/-! ## Floating-point data

`double` is IEEE-754 binary64 and `scalarQ` is `__float128`, IEEE-754 binary128.
Both are represented by the datum they denote; NaN payloads are not
distinguished.  `fin neg m e` denotes `(-1)^neg * m * 2^e`. -/

/-- An IEEE-754 binary floating-point datum. -/
inductive FP where
  | nan
  | inf (neg : Bool)
  | zero (neg : Bool)
  | fin (neg : Bool) (m : Nat) (e : Int)
  deriving DecidableEq, Repr

/-- A binary interchange format: `prec` significand bits, `emin` the exponent of
the last place of the subnormals, `emax` the exponent of the last place of the
largest binade. -/
structure Format where
  prec : Nat
  emin : Int
  emax : Int
  deriving DecidableEq, Repr

/-- The format of `double`. -/
def binary64 : Format := ⟨53, -1074, 971⟩

/-- The format of `__float128`. -/
def binary128 : Format := ⟨113, -16494, 16271⟩

/-- Number of binary digits of `n`, counted with `fuel` halvings. -/
def bitLengthAux : Nat → Nat → Nat
  | 0, _ => 0
  | fuel + 1, n => if n = 0 then 0 else bitLengthAux fuel (n / 2) + 1

/-- Number of binary digits of `n` (`0` for `n = 0`). -/
def bitLength (n : Nat) : Nat := bitLengthAux n n

/-- The data of a format: NaN, the infinities, the signed zeros, and the finite
non-zero numbers in canonical form (normal, or subnormal at `emin`). -/
def FP.representable (f : Format) : FP → Prop
  | .fin _ m e =>
      0 < m ∧ m < 2 ^ f.prec ∧ f.emin ≤ e ∧ e ≤ f.emax ∧ (2 ^ (f.prec - 1) ≤ m ∨ e = f.emin)
  | _ => True

instance (f : Format) (x : FP) : Decidable (x.representable f) := by
  cases x <;> unfold FP.representable <;> infer_instance

/-- Rounding of `(-1)^neg * m * 2^e` to format `f`, to nearest, ties to even
(the rounding of a C++ floating conversion in the default rounding mode). -/
def roundNearestEven (f : Format) (neg : Bool) (m : Nat) (e : Int) : FP :=
  if m = 0 then .zero neg
  else
    let E : Int := max (e + (bitLength m : Int) - (f.prec : Int)) f.emin
    if E ≤ e then
      if f.emax < E then .inf neg else .fin neg (m * 2 ^ (e - E).toNat) E
    else
      let sh : Nat := (E - e).toNat
      let q : Nat := m / 2 ^ sh
      let r : Nat := m % 2 ^ sh
      let half : Nat := 2 ^ (sh - 1)
      let q1 : Nat := if half < r ∨ (r = half ∧ q % 2 = 1) then q + 1 else q
      if q1 = 0 then .zero neg
      else if q1 = 2 ^ f.prec then
        (if f.emax < E + 1 then .inf neg else .fin neg (2 ^ (f.prec - 1)) (E + 1))
      else if f.emax < E then .inf neg
      else .fin neg q1 E

/-- A C++ floating conversion `to = a` into a variable of format `f`. -/
def convert (f : Format) : FP → FP
  | .nan => .nan
  | .inf s => .inf s
  | .zero s => .zero s
  | .fin s m e => roundNearestEven f s m e

/-- A C++ `int` (32 bits, two's complement). -/
abbrev CInt : Type := {n : Int // -2 ^ 31 ≤ n ∧ n < 2 ^ 31}

/-- The C++ conversion of an `int` to `__float128`. -/
def intToQ (n : CInt) : FP :=
  if n.val = 0 then .zero false
  else roundNearestEven binary128 (decide (n.val < 0)) n.val.natAbs 0

/-- The C++ contextual conversion of a floating value to `bool`: `x != 0`. -/
def FP.toBool : FP → Bool
  | .zero _ => false
  | .fin _ m _ => decide (m ≠ 0)
  | _ => true

/-- The rational denoted by a finite datum (`none` for NaN and the infinities). -/
def FP.toRat : FP → Option ℚ
  | .nan => none
  | .inf _ => none
  | .zero _ => some 0
  | .fin s m e => some ((if s then -1 else 1) * (m : ℚ) * (2 : ℚ) ^ e)

/-! ## The extended-precision library

`ScalarQ.cpp` forwards to libquadmath, which is not part of the repository; its
functions are parameters of the embedding. -/

/-- The libquadmath functions used by `ScalarQ.cpp`. `frexpq` returns its result
together with the value it stores through its `int*` argument. -/
structure QuadMath where
  acosq : FP → FP
  acoshq : FP → FP
  asinq : FP → FP
  asinhq : FP → FP
  atanq : FP → FP
  atanhq : FP → FP
  atan2q : FP → FP → FP
  cbrtq : FP → FP
  ceilq : FP → FP
  coshq : FP → FP
  cosq : FP → FP
  erfq : FP → FP
  erfcq : FP → FP
  expq : FP → FP
  fabsq : FP → FP
  floorq : FP → FP
  fmaxq : FP → FP → FP
  fminq : FP → FP → FP
  fmodq : FP → FP → FP
  isinfq : FP → CInt
  isnanq : FP → CInt
  roundq : FP → FP
  logq : FP → FP
  log10q : FP → FP
  log2q : FP → FP
  powq : FP → FP → FP
  sinhq : FP → FP
  sinq : FP → FP
  sqrtq : FP → FP
  tanhq : FP → FP
  tanq : FP → FP
  frexpq : FP → FP × CInt
  ldexpq : FP → CInt → FP

namespace ScalarQ

variable (L : QuadMath)

/-! ### `STDQUAD1` / `STDQUAD2` wrappers (`ScalarQ.cpp` lines 5-39) -/

def acos (a : FP) : FP := L.acosq a
def acosh (a : FP) : FP := L.acoshq a
def asin (a : FP) : FP := L.asinq a
def asinh (a : FP) : FP := L.asinhq a
def atan (a : FP) : FP := L.atanq a
def atanh (a : FP) : FP := L.atanhq a
def atan2 (a b : FP) : FP := L.atan2q a b
def cbrt (a : FP) : FP := L.cbrtq a
def ceil (a : FP) : FP := L.ceilq a
def cosh (a : FP) : FP := L.coshq a
def cos (a : FP) : FP := L.cosq a
def erf (a : FP) : FP := L.erfq a
def erfc (a : FP) : FP := L.erfcq a
def exp (a : FP) : FP := L.expq a
def fabs (a : FP) : FP := L.fabsq a
def floor (a : FP) : FP := L.floorq a
def fmax (a b : FP) : FP := L.fmaxq a b
def fmin (a b : FP) : FP := L.fminq a b
def fmod (a b : FP) : FP := L.fmodq a b
/-- `scalarQ isinf(scalarQ a) {return isinfq(a);}`: the `int` is converted. -/
def isinf (a : FP) : FP := intToQ (L.isinfq a)
/-- `scalarQ isnan(scalarQ a) {return isnanq(a);}`: the `int` is converted. -/
def isnan (a : FP) : FP := intToQ (L.isnanq a)
def round (a : FP) : FP := L.roundq a
def log (a : FP) : FP := L.logq a
def log10 (a : FP) : FP := L.log10q a
def log2 (a : FP) : FP := L.log2q a
def pow (a b : FP) : FP := L.powq a b
def sinh (a : FP) : FP := L.sinhq a
def sin (a : FP) : FP := L.sinq a
def sqrt (a : FP) : FP := L.sqrtq a
def tanh (a : FP) : FP := L.tanhq a
def tan (a : FP) : FP := L.tanq a

/-- `scalarQ abs(scalarQ a) { return fabs(a); }` -/
def abs (a : FP) : FP := fabs L a

/-- `bool isfinite(scalarQ a) { return !isinfq(a) && !isnanq(a); }` with the C++
reading of an `int` as a condition (`!n` is `n == 0`). -/
def isfinite (a : FP) : Bool := ((L.isinfq a).val == 0) && ((L.isnanq a).val == 0)

/-- `scalarQ frexp(scalarQ a,int* exp)`: the result and the value left in `*exp`. -/
def frexp (a : FP) : FP × CInt := L.frexpq a

/-- `scalarQ ldexp(scalarQ a,int exp)` -/
def ldexp (a : FP) (exp : CInt) : FP := L.ldexpq a exp

/-- `void convert_scalar(double a,double& to)`: the value left in `to`. -/
def convert_scalar_dd (a : FP) : FP := a

/-- `void convert_scalar(double a,__float128& to)`: the value left in `to`. -/
def convert_scalar_dq (a : FP) : FP := convert binary128 a

/-- `void convert_scalar(__float128 a,double& to)`: the value left in `to`. -/
def convert_scalar_qd (a : FP) : FP := convert binary64 a

/-- `void convert_scalar(__float128 a,__float128& to)`: the value left in `to`. -/
def convert_scalar_qq (a : FP) : FP := a

/-- `double to_double(scalarQ a) { return a; }` -/
def to_double (a : FP) : FP := convert binary64 a

end ScalarQ

/-! ## Stream text I/O of the scalar (`ScalarQ.cpp` lines 76-93)

The iostream library is not part of the repository; the operations the backend
calls are parameters.  `OS` is the state of an output stream (text written so
far and formatting state), `IS` the state of an input stream. -/

/-- The iostream operations used by `ScalarQ.cpp`. -/
structure StreamLib (OS IS : Type) where
  /-- `output << d` for a `double d`: the stream afterwards. -/
  insertDouble : OS → FP → OS
  /-- `input >> tmp` for a `double tmp` holding `old`: the stream afterwards and
  the value `tmp` holds afterwards. -/
  extractDouble : IS → FP → IS × FP
  /-- A default-constructed `ostringstream`. -/
  ostringstream : OS
  /-- `oss.str()`. -/
  str : OS → String

namespace ScalarQ

variable {OS IS : Type} (S : StreamLib OS IS)

/-- `ostream& operator<<(ostream& output,scalarQ x)`:
`output << (double)x; return output;` -/
def operator_lshift (output : OS) (x : FP) : OS :=
  S.insertDouble output (convert binary64 x)

/-- `std::string to_string(scalarQ a)`:
`ostringstream oss; oss << a; return oss.str();`, where `oss << a` on a
`scalarQ` is the backend's own `operator<<`. -/
def to_string (a : FP) : String :=
  S.str (operator_lshift S S.ostringstream a)

/-- `istream& operator>>(istream& input,scalarQ& x)`:
`double tmp; input >> tmp; x=tmp; return input;`.  `tmp0` is the indeterminate
initial content of the local `tmp`; the result is the stream returned and the
value left in `x` (the old value of `x` is not read). -/
def operator_rshift (input : IS) (_x : FP) (tmp0 : FP) : IS × FP :=
  let r := S.extractDouble input tmp0
  (r.1, convert binary128 r.2)

end ScalarQ

/-! ## The evaluation driver (`Main/mainEvaluate.cpp` lines 39-50) -/

namespace mainEvaluate

/-- The usage text of the argument-count assertion. -/
def usage : String :=
  "mainGraspPlan: [urdf path] [density] [obj path] [initial parameters]"

/-- The entry `argc[i]` of the argument vector: the supplied string for
`i < argn`, no string otherwise (`argc[argn]` is the null pointer). -/
def argAt (argv : List String) (i : Nat) : Option String := argv[i]?

/-- The argument handling of `main`, with `argn = argv.length`:
`ASSERT_MSG(argn>=4,...)`, then `argc[1]`, `argc[2]`, `argc[3]` and `argc[4]`
are read.  `Except.error` is the failed assertion; otherwise the four entries
read, in order. -/
def readArgs (argv : List String) : Except String (List (Option String)) :=
  if 4 ≤ (argv.length : Int) then
    .ok [argAt argv 1, argAt argv 2, argAt argv 3, argAt argv 4]
  else .error usage

/-- The argument-count check passes. -/
def checkPasses (argv : List String) : Bool :=
  match readArgs argv with
  | .ok _ => true
  | .error _ => false

end mainEvaluate

/-- A stream library whose output stream is the list of doubles inserted so far
and whose input stream is the list of doubles still to be extracted. -/
def listStream : StreamLib (List FP) (List FP) where
  insertDouble := fun os d => os ++ [d]
  extractDouble := fun is old =>
    match is with
    | [] => ([], old)
    | d :: rest => (rest, d)
  ostringstream := []
  str := fun os => String.mk (os.map (fun d => if d.toBool then '1' else '0'))

/-! ## Geometry cells

`CylinderGeomCell.h` and `CompositeGeomCell.h` declare the cells; the member
function bodies are not among the sources.  The scalar of the geometry is
taken exact (`ℚ`). -/

/-- A point or direction. -/
abbrev Vec3 : Type := Fin 3 → ℚ

/-- A 4×4 homogeneous transform: its 16 scalar fields, column by column. -/
abbrev Mat4 : Type := {l : List ℚ // l.length = 16}

/-- Entry `(i, j)` of a transform. -/
def Mat4.entry (T : Mat4) (i j : Nat) : ℚ := T.val.getD (j * 4 + i) 0

/-- The point `p` expressed in the local frame of the rigid transform `T`:
`Rᵀ (p - t)`. -/
def Mat4.toLocalPoint (T : Mat4) (p : Vec3) : Vec3 :=
  fun i => (T.entry 0 i) * (p 0 - T.entry 0 3) + (T.entry 1 i) * (p 1 - T.entry 1 3)
    + (T.entry 2 i) * (p 2 - T.entry 2 3)

/-- The direction `d` expressed in the local frame of the rigid transform `T`:
`Rᵀ d`. -/
def Mat4.toLocalDir (T : Mat4) (d : Vec3) : Vec3 :=
  fun i => (T.entry 0 i) * d 0 + (T.entry 1 i) * d 1 + (T.entry 2 i) * d 2

/-- The result of a ray query: a parametric distance, or the no-hit sentinel
(infinite distance). -/
inductive RayDist where
  | hit (t : ℚ)
  | noHit
  deriving DecidableEq, Repr

/-- The smaller of two ray-query results; the sentinel is larger than every hit. -/
def RayDist.min : RayDist → RayDist → RayDist
  | .noHit, b => b
  | a, .noHit => a
  | .hit s, .hit t => if t < s then .hit t else .hit s

/-- A cell on the heap.  The fields of `StaticGeomCell` (`T`, `res`) come first;
a cylinder adds `_dim`, `_rad`, `_y`; a composite adds `_children`, each
`std::shared_ptr<StaticGeomCell>` being the address of the cell it points to. -/
inductive Cell where
  | cylinder (T : Mat4) (res : Int) (dim : Nat) (rad y : ℚ)
  | composite (T : Mat4) (res : Int) (children : List Nat)
  deriving DecidableEq

/-- The heap of cells: the cell at address `a` is `h[a]`. -/
abbrev Heap : Type := List Cell

/-- The transform of a cell. -/
def Cell.T : Cell → Mat4
  | .cylinder T _ _ _ _ => T
  | .composite T _ _ => T

/-- The tessellation resolution of a cell. -/
def Cell.res : Cell → Int
  | .cylinder _ r _ _ _ => r
  | .composite _ r _ => r

/-- The child addresses of a cell (none for a primitive). -/
def Cell.children : Cell → List Nat
  | .cylinder _ _ _ _ _ => []
  | .composite _ _ ch => ch

/-- The cell with its resolution replaced. -/
def Cell.withRes (r : Int) : Cell → Cell
  | .cylinder T _ dim rad y => .cylinder T r dim rad y
  | .composite T _ ch => .composite T r ch

namespace CylinderGeomCell

/-- The axial coordinate of a point: its coordinate along axis `dim`. -/
def axial (dim : Nat) (pt : Vec3) : ℚ :=
  if dim = 0 then pt 0 else if dim = 1 then pt 1 else pt 2

/-- The squared distance of a point from the axis `dim`. -/
def radialSq (dim : Nat) (pt : Vec3) : ℚ :=
  if dim = 0 then pt 1 * pt 1 + pt 2 * pt 2
  else if dim = 1 then pt 0 * pt 0 + pt 2 * pt 2
  else pt 0 * pt 0 + pt 1 * pt 1

/-- Modelled from the spec: the body of `CylinderGeomCell::distInner`, declared in
`CylinderGeomCell.h` and defined in a file that is not among the sources.  The
spec: "project the query point onto the axis to get axial coordinate `y` and
radial distance `r` from the axis; the point is inside iff `|y| ≤ halfHeight`
and `r ≤ radius`".  The radial distance is the square root of `radialSq`, in
general not a rational; for a radius `rad ≥ 0` (the invariant of the data
model) `r ≤ rad` is decided exactly as `r² ≤ rad²`.  The result is the inside
classification (the normal written to `n` is not modelled). -/
def distInner (dim : Nat) (rad y : ℚ) (pt : Vec3) : Bool :=
  let yAxial := axial dim pt
  let rSq := radialSq dim pt
  decide (|yAxial| ≤ y) && decide (rSq ≤ rad * rad)

end CylinderGeomCell

namespace CompositeGeomCell

/-- Modelled from the spec: the body of `CompositeGeomCell::rayQueryInner`, declared
in `CompositeGeomCell.h` and defined in a file that is not among the sources.  The
spec: "Composite aggregates by taking the minimum finite hit across children,
each evaluated in the child's local frame after transforming the ray", with "a
sentinel (infinite distance) when no hit exists".  `childQuery c` is the ray
query of the child at address `c`. -/
def rayQueryInner (childQuery : Nat → Vec3 → Vec3 → RayDist) (children : List Nat)
    (x0 dir : Vec3) : RayDist :=
  children.foldl (fun best c => RayDist.min best (childQuery c x0 dir)) .noHit

end CompositeGeomCell

/-- Modelled from the spec: `StaticGeomCell::rayQuery`, whose body is not among the
sources: the ray is transformed into the cell's local frame and handed to the
cell's `rayQueryInner`.  `cylinderRay dim rad y` is the closed-form ray query of
a cylinder (not modelled); a dangling address, or exhausted `fuel`, gives the
sentinel. -/
def rayQuery (cylinderRay : Nat → ℚ → ℚ → Vec3 → Vec3 → RayDist) (h : Heap) :
    Nat → Nat → Vec3 → Vec3 → RayDist
  | 0, _, _, _ => .noHit
  | fuel + 1, a, x0, dir =>
    match h[a]? with
    | none => .noHit
    | some (.cylinder T _ dim rad y) =>
        cylinderRay dim rad y (T.toLocalPoint x0) (T.toLocalDir dir)
    | some (.composite T _ ch) =>
        CompositeGeomCell.rayQueryInner (rayQuery cylinderRay h fuel) ch
          (T.toLocalPoint x0) (T.toLocalDir dir)

/-! ### Resolution and children -/

/-- Modelled from the spec: `setRes`, whose bodies are not among the sources:
"sets tessellation density; composite propagates to all children, applied
uniformly".  The heap after `setRes(res)` on the cell at address `a`. -/
def setRes : Nat → Heap → Nat → Int → Heap
  | 0, h, _, _ => h
  | fuel + 1, h, a, r =>
    match h[a]? with
    | none => h
    | some c => c.children.foldl (fun h1 c1 => setRes fuel h1 c1 r) (h.set a (c.withRes r))

/-- Modelled from the spec: `CompositeGeomCell::getChild(i)`, "per-index child
handle": the address held in child slot `i` of the cell at address `a`. -/
def getChild (h : Heap) (a i : Nat) : Option Nat :=
  match h[a]? with
  | some (.composite _ _ ch) => ch[i]?
  | _ => none

/-- The resolution of the cell at address `a`. -/
def getRes (h : Heap) (a : Nat) : Option Int := (h[a]?).map Cell.res

/-! ### Serialization with the sharing registry -/

/-- A field of the binary stream. -/
inductive Tok where
  | tag (name : String)
  | scalar (q : ℚ)
  | int (n : Int)
  | ref (i : Nat)
  deriving DecidableEq

/-- The fields of a transform. -/
def writeMat4 (T : Mat4) : List Tok := T.val.map Tok.scalar

/-- Reads `n` scalar fields. -/
def readScalars : Nat → List Tok → Option (List ℚ × List Tok)
  | 0, toks => some ([], toks)
  | n + 1, .scalar q :: toks =>
    match readScalars n toks with
    | some (qs, rest) => some (q :: qs, rest)
    | none => none
  | _ + 1, _ => none

/-- Reads the 16 fields of a transform. -/
def readMat4 (toks : List Tok) : Option (Mat4 × List Tok) :=
  match readScalars 16 toks with
  | some (qs, rest) => if h : qs.length = 16 then some (⟨qs, h⟩, rest) else none
  | none => none

/-- Writes the children of a composite in slot order, threading the registry. -/
def writeChildren (writeOne : List Nat → Nat → Option (List Tok × List Nat)) :
    List Nat → List Nat → Option (List Tok × List Nat)
  | reg, [] => some ([], reg)
  | reg, c :: cs =>
    match writeOne reg c with
    | none => none
    | some (t1, reg1) =>
      match writeChildren writeOne reg1 cs with
      | none => none
      | some (t2, reg2) => some (t1 ++ t2, reg2)

/-- Modelled from the spec: `write`, whose bodies are not among the sources.  "Each
cell record begins with a tag identifying its concrete variant.  A composite
record writes: the rigid transform (16 scalar fields), then the child count,
then for each child either an inline full record (first occurrence) or a
back-reference index into a registry of already-written cells.  A primitive
record writes its transform followed by its shape parameters in a fixed field
order (cylinder: axis index, radius, half-height)."  `reg` is the registry: the
addresses of the cells written so far, in first-appearance order.  A dangling
address, or exhausted `fuel`, gives `none`. -/
def writeCell (h : Heap) : Nat → List Nat → Nat → Option (List Tok × List Nat)
  | 0, _, _ => none
  | fuel + 1, reg, a =>
    if a ∈ reg then some ([.ref (reg.indexOf a)], reg)
    else
      match h[a]? with
      | none => none
      | some (.cylinder T _ dim rad y) =>
          some (.tag "cylinder" :: writeMat4 T ++ [.int dim, .scalar rad, .scalar y], reg ++ [a])
      | some (.composite T _ ch) =>
          match writeChildren (writeCell h fuel) (reg ++ [a]) ch with
          | none => none
          | some (ts, reg1) =>
              some (.tag "composite" :: writeMat4 T ++ .int ch.length :: ts, reg1)

/-- Reads `n` children in slot order, threading the stream and the registry. -/
def readChildren (readOne : List Tok → Heap → Option (Nat × List Tok × Heap)) :
    Nat → List Tok → Heap → Option (List Nat × List Tok × Heap)
  | 0, toks, reg => some ([], toks, reg)
  | n + 1, toks, reg =>
    match readOne toks reg with
    | none => none
    | some (a, toks1, reg1) =>
      match readChildren readOne n toks1 reg1 with
      | none => none
      | some (as, toks2, reg2) => some (a :: as, toks2, reg2)

/-- Modelled from the spec: `read`, whose bodies are not among the sources: the
"reader maintains a positional registry of cells read so far, indexed by
first-appearance order"; "a read that encounters an unrecognized type tag, a
truncated stream, or a back-reference index beyond the current registry size
reports a structured read failure".  The registry is the heap of the cells
read: a cell's address is its registry position.  A cell read gets the
resolution `res0` of a default-constructed cell (the record holds none).  The
result is the address of the cell read, the rest of the stream, and the heap. -/
def readCell (res0 : Int) : Nat → List Tok → Heap → Option (Nat × List Tok × Heap)
  | 0, _, _ => none
  | fuel + 1, toks, reg =>
    match toks with
    | .ref i :: rest => if i < reg.length then some (i, rest, reg) else none
    | .tag name :: rest =>
      if name = "cylinder" then
        match readMat4 rest with
        | some (T, .int dim :: .scalar rad :: .scalar y :: rest1) =>
            if 0 ≤ dim then some (reg.length, rest1, reg ++ [.cylinder T res0 dim.toNat rad y])
            else none
        | _ => none
      else if name = "composite" then
        match readMat4 rest with
        | some (T, .int n :: rest1) =>
            if 0 ≤ n then
              match readChildren (readCell res0 fuel) n.toNat rest1
                  (reg ++ [.composite T res0 []]) with
              | none => none
              | some (ch, rest2, reg1) =>
                  some (reg.length, rest2, reg1.set reg.length (.composite T res0 ch))
            else none
        | _ => none
      else none
    | _ => none

/-- Writing the tree rooted at address `root` of heap `h` to an empty stream with
an empty registry: the stream and the final registry. -/
def write (h : Heap) (root : Nat) : Option (List Tok × List Nat) :=
  writeCell h (h.length + 1) [] root

/-- Reading a tree from a stream with an empty registry: the address of the
root and the heap read. -/
def read (res0 : Int) (toks : List Tok) : Option (Nat × Heap) :=
  match readCell res0 (toks.length + 1) toks [] with
  | some (root, _, h) => some (root, h)
  | none => none

/-- The heap respects construction order: a composite is built from cells that
exist already, so every child address is smaller than its parent's. -/
def Heap.constructionOrdered (h : Heap) : Prop :=
  ∀ p ∈ h.enum, ∀ b ∈ p.2.children, b < p.1

instance (h : Heap) : Decidable h.constructionOrdered := by
  unfold Heap.constructionOrdered; infer_instance

/-- The cell at address `a` (an empty composite for a dangling address). -/
def cellAt (h : Heap) (a : Nat) : Cell :=
  h.getD a (.composite ⟨List.replicate 16 0, rfl⟩ 0 [])

/-- The cell a reader rebuilds from the record of a cell: same transform and
shape, default resolution, each child address replaced by its position `pos`
in the registry. -/
def relabelCell (pos : Nat → Nat) (res0 : Int) : Cell → Cell
  | .cylinder T _ dim rad y => .cylinder T res0 dim rad y
  | .composite T _ ch => .composite T res0 (ch.map pos)

/-- The cell reached from address `a` by descending through the child slots of
`path`, one `getChild` per entry. -/
def follow (h : Heap) : Nat → List Nat → Option Nat
  | a, [] => some a
  | a, i :: path =>
    match getChild h a i with
    | some c => follow h c path
    | none => none

/-- The heap after `getChild(slot)->setRes(r)` called on the cell at `parent`. -/
def setResThrough (fuel : Nat) (h : Heap) (parent slot : Nat) (r : Int) : Heap :=
  match getChild h parent slot with
  | some c => setRes fuel h c r
  | none => h

/-- The resolution of the cell in child slot `slot` of the cell at `parent`. -/
def resThrough (h : Heap) (parent slot : Nat) : Option Int :=
  match getChild h parent slot with
  | some c => getRes h c
  | none => none

/-- The round-trip statement for one `writeCell` call with writer fuel `fuel`:
the registry grows by the cells first written in the call, and reading the
record back appends exactly their relabelled copies to the reader's heap. -/
def ReadsBack (h : Heap) (res0 : Int) (fuel : Nat) : Prop :=
  ∀ (reg : List Nat) (a : Nat) (toks : List Tok) (reg1 : List Nat),
    writeCell h fuel reg a = some (toks, reg1) →
    ∃ new : List Nat, reg1 = reg ++ new ∧ a ∈ reg1 ∧
      (∀ b ∈ new, ∀ c ∈ (cellAt h b).children, c ∈ reg1) ∧
      ∀ (fuelR : Nat) (rest : List Tok) (regR : Heap),
        toks.length ≤ fuelR → regR.length = reg.length →
        readCell res0 fuelR (toks ++ rest) regR =
          some (reg1.indexOf a, rest,
            regR ++ new.map (fun b => relabelCell (fun c => reg1.indexOf c) res0 (cellAt h b)))

/-- The identity transform. -/
def Mat4.identity : Mat4 := ⟨[1, 0, 0, 0, 0, 1, 0, 0, 0, 0, 1, 0, 0, 0, 0, 1], rfl⟩

/-- A tree with a shared child: the cylinder at address 0 is the only child of
the composites at addresses 1 and 2, which are the children of the root
composite at address 3. -/
def sharedChildHeap : Heap :=
  [.cylinder Mat4.identity 8 1 1 2,
   .composite Mat4.identity 8 [0],
   .composite Mat4.identity 8 [0],
   .composite Mat4.identity 8 [1, 2]]


/-! ## Initial parameters (`Main/mainEvaluate.cpp` lines 16-31) -/

/-- The format of `float`. -/
def binary32 : Format := ⟨24, -149, 104⟩

/-- A number as a text field holds it: sign, decimal digits and decimal exponent,
denoting `(-1)^neg * digits * 10^exp10`. -/
structure Decimal where
  neg : Bool
  digits : Nat
  exp10 : Int
  deriving DecidableEq, Repr

/-- Rounding of the ratio `(-1)^neg * a / b` (`b > 0`) to format `f`, to nearest,
ties to even: the quotient is taken with two bits more than the precision, and a
last bit records whether the division left a remainder. -/
def roundRatio (f : Format) (neg : Bool) (a b : Nat) : FP :=
  if a = 0 then .zero neg
  else
    let s : Nat := (f.prec + 2 + bitLength b) - bitLength a
    let q : Nat := a * 2 ^ s / b
    let sticky : Nat := if a * 2 ^ s % b = 0 then 0 else 1
    roundNearestEven f neg (2 * q + sticky) (-(s : Int) - 1)

/-- The `float` nearest to a decimal number (an infinity when the number is
beyond the range of `float`): the conversion `strtof` performs. -/
def readFloat (d : Decimal) : FP :=
  roundRatio binary32 d.neg (d.digits * 10 ^ d.exp10.toNat) (10 ^ (-d.exp10).toNat)

namespace mainEvaluate

/-- `fin >> a` for `float a` on a field holding the number `d`: the value stored
when the extraction succeeds, `none` when it fails.  A number too large for a
`float` makes the extraction fail (`failbit`); a number too small is accepted
and rounded to a subnormal or to zero. -/
def extractFloat (d : Decimal) : Option FP :=
  match readFloat d with
  | .inf _ => none
  | v => some v

/-- The loop of `initializeParams`: `while (fin >> a) { x[i] = a; ...; i++; }` with
`float a` and `int i`.  The parameter file `fin` is the sequence of the numbers
it holds; at the end of the file the extraction fails.  `x` is the vector of
doubles; `x[i] = a` converts the float to `double`.  An index outside the vector
gives `none`. -/
def initializeParamsLoop : List Decimal → Nat → List FP → Option (List FP)
  | [], _, x => some x
  | d :: fin, i, x =>
    match extractFloat d with
    | none => some x
    | some a =>
      if i < x.length then initializeParamsLoop fin (i + 1) (x.set i (convert binary64 a))
      else none

/-- `Vec initializeParams(std::string path, Vec &x)`: `int i = 0`, the loop, then
`return x`.  `fin` is the content of the file at `path`. -/
def initializeParams (fin : List Decimal) (x : List FP) : Option (List FP) :=
  initializeParamsLoop fin 0 x

/-- The vector with entries `0..k-1` replaced, in file order, by the `k` numbers of
the file read at single precision and widened to `double`, and the entries from
index `k` on kept. -/
def replacedParams (fin : List Decimal) (x : List FP) : List FP :=
  fin.map (fun d => convert binary64 (readFloat d)) ++ x.drop fin.length

end mainEvaluate

/-! ## The cache-file path of the drivers

`mainPointCloudObject.cpp` lines 40-43, `mainGraspOptimize.cpp` lines 25-28 and
`mainEvaluate.cpp` lines 56-59 compute the cache file with
`std::experimental::filesystem::v1::path`, which is not part of the repository;
its members are taken from the Filesystem TS, for the POSIX pathname format
(separator `/`, no root names). -/

/-- A filesystem path: its pathname string. -/
abbrev FsPath : Type := List Char

namespace FsPath

/-- The text after the last `/` of the pathname. -/
def lastComponent (p : FsPath) : List Char :=
  (p.reverse.takeWhile (fun c => c != '/')).reverse

/-- The pathname up to and including its last `/`. -/
def directoryPart (p : FsPath) : List Char :=
  (p.reverse.dropWhile (fun c => c != '/')).reverse

/-- `path::filename()`: "`empty() ? path() : *--end()`".  The last element of a
path is its last filename; it is dot "if one or more trailing non-root slash
characters are present", and the root directory for a path of slashes only.
Root names are implementation-defined and not modelled: a pathname that begins
with exactly two slashes, which libstdc++ reads as a root name, is treated here
by the same rule as any other. -/
def filename (p : FsPath) : FsPath :=
  if p = [] then []
  else if lastComponent p ≠ [] then lastComponent p
  else if p.all (fun c => c == '/') then ['/']
  else ['.']

/-- `path::extension()`: "if `filename()` contains a period but does not consist
solely of one or two periods, returns the substring of `filename()` starting at
the rightmost period and for the remainder of the path.  Otherwise, returns an
empty path object." -/
def extension (p : FsPath) : FsPath :=
  let f := filename p
  if '.' ∈ f ∧ f ≠ ['.'] ∧ f ≠ ['.', '.'] then
    '.' :: (f.reverse.takeWhile (fun c => c != '.')).reverse
  else []

/-- `path::replace_extension(replacement)`: "Any existing `extension()` is removed
from the stored path, then if `replacement` is not empty and does not begin with
a dot character, a dot character is appended to the stored path, then
`replacement` is concatenated to the stored path." -/
def replace_extension (p replacement : FsPath) : FsPath :=
  let stored := p.take (p.length - (extension p).length)
  let dot : List Char :=
    match replacement with
    | [] => []
    | c :: _ => if c = '.' then [] else ['.']
  stored ++ dot ++ replacement

/-- `path::remove_filename()` ("Postcondition: `!has_filename()`"): the last
element is erased from the pathname; a path of a single element becomes empty,
a trailing dot element goes with the slashes that stand for it. -/
def remove_filename (p : FsPath) : FsPath :=
  if lastComponent p ≠ [] then directoryPart p
  else if p.all (fun c => c == '/') then []
  else (p.reverse.dropWhile (fun c => c == '/')).reverse

/-- `path::operator/=`: "Appends `path::preferred_separator` to `pathname` unless:
an added separator would be redundant, or would change a relative path to an
absolute path, or `p.empty()`, or `*p.native().cbegin()` is a directory
separator.  Then appends `p.native()` to `pathname`." -/
def append (p q : FsPath) : FsPath :=
  let sep : List Char :=
    if p ≠ [] ∧ p.getLast? ≠ some '/' ∧ q ≠ [] ∧ q.head? ≠ some '/' then ['/'] else []
  p ++ sep ++ q

/-- `path::replace_filename(replacement)`: "`remove_filename();`
`operator/=(replacement);`". -/
def replace_filename (p replacement : FsPath) : FsPath :=
  append (remove_filename p) replacement

end FsPath

namespace Driver

/-- The character of the decimal digit `k`. -/
def digitChar (k : Nat) : Char := Char.ofNat (48 + k)

/-- The decimal digits of `n` in front of `acc`, with `fuel` divisions. -/
def decimalAux : Nat → Nat → List Char → List Char
  | 0, _, acc => acc
  | fuel + 1, n, acc =>
    if n / 10 = 0 then digitChar (n % 10) :: acc
    else decimalAux fuel (n / 10) (digitChar (n % 10) :: acc)

/-- The decimal text of a natural number. -/
def decimal (n : Nat) : List Char := decimalAux (n + 1) n []

/-- `std::to_string(density)` for the integer `density`: its decimal text, with a
leading `-` when negative. -/
def to_string (d : Int) : List Char :=
  if d < 0 then '-' :: decimal d.natAbs else decimal d.natAbs

/-- The number a decimal text denotes, read digit by digit. -/
def decimalValue (s : List Char) : Nat :=
  s.foldl (fun v c => 10 * v + (c.toNat - 48)) 0

/-- The cache-file path of the drivers, from the input path and the density:
`path p(path); p.replace_extension("");`
`p.replace_filename(p.filename().string()+"_"+std::to_string(density));`
`p.replace_extension(".dat");` -/
def cachePath (path : FsPath) (density : Int) : FsPath :=
  let p1 := FsPath.replace_extension path []
  let p2 := FsPath.replace_filename p1 (FsPath.filename p1 ++ ['_'] ++ to_string density)
  FsPath.replace_extension p2 ['.', 'd', 'a', 't']

/-- The cache-file path the drivers are meant to compute: the input path with its
final extension removed, followed by `_`, the decimal text of the density and
`.dat`. -/
def expectedCachePath (path : FsPath) (density : Int) : FsPath :=
  FsPath.replace_extension path [] ++ ['_'] ++ to_string density ++ ['.', 'd', 'a', 't']

end Driver

/-! ## Theorems -/

/-! ### Bit length -/

theorem bitLengthAux_zero (fuel : Nat) : bitLengthAux fuel 0 = 0 := by
  cases fuel <;> simp [bitLengthAux]

theorem bitLengthAux_eq_log (fuel n : Nat) (hle : n ≤ fuel) (hn : 0 < n) :
    bitLengthAux fuel n = Nat.log 2 n + 1 := by
  induction fuel generalizing n with
  | zero => omega
  | succ k ih =>
    have hne : n ≠ 0 := by omega
    simp only [bitLengthAux, if_neg hne]
    by_cases h2 : 2 ≤ n
    · have hpos : 0 < n / 2 := Nat.div_pos h2 (by decide)
      have hle2 : n / 2 ≤ k := by omega
      rw [ih (n / 2) hle2 hpos]
      have : Nat.log 2 n = Nat.log 2 (n / 2) + 1 := Nat.log_of_one_lt_of_le (by decide) h2
      omega
    · have h1 : n = 1 := by omega
      subst h1
      simp [bitLengthAux_zero]

theorem bitLength_eq_log (n : Nat) (hn : 0 < n) : bitLength n = Nat.log 2 n + 1 :=
  bitLengthAux_eq_log n n (Nat.le_refl n) hn

theorem bitLength_pos (n : Nat) (hn : 0 < n) : 0 < bitLength n := by
  rw [bitLength_eq_log n hn]; omega

theorem lt_two_pow_bitLength (n : Nat) : n < 2 ^ bitLength n := by
  rcases Nat.eq_zero_or_pos n with h | h
  · subst h; simp
  · rw [bitLength_eq_log n h]
    exact Nat.lt_pow_succ_log_self (by decide) n

theorem two_pow_bitLength_le (n : Nat) (hn : 0 < n) : 2 ^ (bitLength n - 1) ≤ n := by
  rw [bitLength_eq_log n hn, Nat.add_sub_cancel]
  exact Nat.pow_log_le_self 2 (by omega)

theorem bitLength_of_bounds (n b : Nat) (h1 : 2 ^ b ≤ n) (h2 : n < 2 ^ (b + 1)) :
    bitLength n = b + 1 := by
  have hn : 0 < n := lt_of_lt_of_le (Nat.two_pow_pos _) h1
  rw [bitLength_eq_log n hn, Nat.log_eq_of_pow_le_of_lt_pow h1 h2]

theorem bitLength_le_of_lt (n k : Nat) (h : n < 2 ^ k) : bitLength n ≤ k := by
  rcases Nat.eq_zero_or_pos n with h0 | h0
  · subst h0; simp [bitLength, bitLengthAux]
  · rw [bitLength_eq_log n h0]
    exact Nat.log_lt_of_lt_pow (by omega) h

theorem bitLength_mul_two_pow (m k : Nat) (hm : 0 < m) :
    bitLength (m * 2 ^ k) = bitLength m + k := by
  have hb := bitLength_pos m hm
  have hlo := two_pow_bitLength_le m hm
  have hhi := lt_two_pow_bitLength m
  have e1 : bitLength m + k = (bitLength m - 1 + k) + 1 := by omega
  rw [e1]
  apply bitLength_of_bounds
  · rw [pow_add]; exact Nat.mul_le_mul_right _ hlo
  · have : bitLength m - 1 + k + 1 = bitLength m + k := by omega
    rw [this, pow_add]
    exact Nat.mul_lt_mul_of_pos_right hhi (Nat.two_pow_pos _)

/-! ### Rounding of representable values -/

/-- A value whose significand fits the format at its own exponent is kept. -/
theorem roundNearestEven_exact (f : Format) (neg : Bool) (m : Nat) (e : Int) (hm : 0 < m)
    (hE : max (e + (bitLength m : Int) - (f.prec : Int)) f.emin ≤ e)
    (hmax : max (e + (bitLength m : Int) - (f.prec : Int)) f.emin ≤ f.emax) :
    roundNearestEven f neg m e =
      .fin neg (m * 2 ^ (e - max (e + (bitLength m : Int) - (f.prec : Int)) f.emin).toNat)
        (max (e + (bitLength m : Int) - (f.prec : Int)) f.emin) := by
  have hne : m ≠ 0 := by omega
  simp only [roundNearestEven, if_neg hne, if_pos hE, if_neg (not_lt.mpr hmax)]

/-- A significand padded with `k` zero bits is rounded back to itself. -/
theorem roundNearestEven_padded (f : Format) (neg : Bool) (m k : Nat) (e : Int)
    (hm : 0 < m) (hk : 0 < k) (hlt : m < 2 ^ f.prec) (he : e ≤ f.emax)
    (hE : max (e - (k : Int) + (bitLength (m * 2 ^ k) : Int) - (f.prec : Int)) f.emin = e) :
    roundNearestEven f neg (m * 2 ^ k) (e - (k : Int)) = .fin neg m e := by
  have hp : 0 < 2 ^ k := Nat.two_pow_pos _
  have hne : m * 2 ^ k ≠ 0 := Nat.ne_of_gt (Nat.mul_pos hm hp)
  have hnot : ¬ e ≤ e - (k : Int) := by omega
  have hsh : (e - (e - (k : Int))).toNat = k := by
    have : e - (e - (k : Int)) = (k : Int) := by ring
    rw [this, Int.toNat_natCast]
  have hq : m * 2 ^ k / 2 ^ k = m := Nat.mul_div_cancel m hp
  have hr : m * 2 ^ k % 2 ^ k = 0 := Nat.mul_mod_left m (2 ^ k)
  have hhalf : 0 < 2 ^ (k - 1) := Nat.two_pow_pos _
  have hcond : ¬ (2 ^ (k - 1) < 0 ∨ (0 = 2 ^ (k - 1) ∧ m % 2 = 1)) := by
    rintro (h | ⟨h, _⟩) <;> omega
  simp only [roundNearestEven, if_neg hne, hE, if_neg hnot, hsh, hq, hr, if_neg hcond,
    if_neg (Nat.ne_of_gt hm), if_neg (Nat.ne_of_lt hlt), if_neg (not_lt.mpr he)]

/-- Widening a finite `double` to `__float128` normalises its significand. -/
theorem convert_binary128_fin (s : Bool) (m : Nat) (e : Int)
    (h : (FP.fin s m e).representable binary64) :
    convert binary128 (.fin s m e) =
      .fin s (m * 2 ^ (113 - bitLength m)) (e - ((113 - bitLength m : Nat) : Int)) := by
  obtain ⟨hm, hlt, hlo, hhi, _⟩ := h
  have hb : bitLength m ≤ 53 := bitLength_le_of_lt m 53 hlt
  have hb0 := bitLength_pos m hm
  simp only [binary64] at hlo hhi
  have hmaxeq : max (e + (bitLength m : Int) - ((binary128.prec : Nat) : Int)) binary128.emin
      = e - ((113 - bitLength m : Nat) : Int) := by
    simp only [binary128]; omega
  have := roundNearestEven_exact binary128 s m e hm (by rw [hmaxeq]; omega)
    (by rw [hmaxeq]; simp only [binary128]; omega)
  rw [hmaxeq] at this
  simp only [convert, this]
  congr 2
  have : e - (e - ((113 - bitLength m : Nat) : Int)) = ((113 - bitLength m : Nat) : Int) := by ring
  rw [this, Int.toNat_natCast]

/-- Narrowing the widening of a `double` gives the `double` back. -/
theorem convert_binary64_binary128 (x : FP) (h : x.representable binary64) :
    convert binary64 (convert binary128 x) = x := by
  cases x with
  | nan => rfl
  | inf s => rfl
  | zero s => rfl
  | fin s m e =>
    rw [convert_binary128_fin s m e h]
    obtain ⟨hm, hlt, hlo, hhi, hcanon⟩ := h
    have hb : bitLength m ≤ 53 := bitLength_le_of_lt m 53 hlt
    have hb0 := bitLength_pos m hm
    simp only [binary64] at hlo hhi hcanon hlt
    have hbl := bitLength_mul_two_pow m (113 - bitLength m) hm
    have hnorm : bitLength m = 53 ∨ e = -1074 := by
      rcases hcanon with h52 | h52
      · left
        have := bitLength_of_bounds m 52 h52 hlt
        omega
      · right; exact h52
    simp only [convert]
    apply roundNearestEven_padded binary64 s m (113 - bitLength m) e hm (by omega) hlt
      (by simp only [binary64]; exact hhi)
    rw [hbl]
    simp only [binary64]
    push_cast
    omega

/-- C2. For every `double` datum `x` (finite normal or subnormal, a signed zero, an
infinity, NaN), widening `x` with `convert_scalar(double, __float128&)` and narrowing
the result with `to_double`, or with `convert_scalar(__float128, double&)`, gives
`x` back. -/
theorem C2_widen_narrow_roundtrip (x : FP) (h : x.representable binary64) :
    ScalarQ.to_double (ScalarQ.convert_scalar_dq x) = x ∧
    ScalarQ.convert_scalar_qd (ScalarQ.convert_scalar_dq x) = x :=
  ⟨convert_binary64_binary128 x h, convert_binary64_binary128 x h⟩

/-- C2 at the subnormal `double` `3 * 2^-1074`. -/
theorem C2_widen_narrow_roundtrip_witness :
    (FP.fin true 3 (-1074)).representable binary64 ∧
    ScalarQ.to_double (ScalarQ.convert_scalar_dq (FP.fin true 3 (-1074))) = FP.fin true 3 (-1074) ∧
    ScalarQ.convert_scalar_qd (ScalarQ.convert_scalar_dq (FP.fin true 3 (-1074)))
      = FP.fin true 3 (-1074) :=
  ⟨by decide, C2_widen_narrow_roundtrip (FP.fin true 3 (-1074)) (by decide)⟩

/-! ### Conversion of an `int` classification -/

/-- A non-zero integer converts to a non-zero `__float128`. -/
theorem roundNearestEven_int_toBool (neg : Bool) (m : Nat) (hm : 0 < m) :
    (roundNearestEven binary128 neg m 0).toBool = true := by
  have hb := bitLength_pos m hm
  have hlo := two_pow_bitLength_le m hm
  have hEq : max ((0 : Int) + (bitLength m : Int) - ((binary128.prec : Nat) : Int)) binary128.emin
      = (bitLength m : Int) - 113 := by
    simp only [binary128]; omega
  unfold roundNearestEven
  simp only [if_neg (Nat.ne_of_gt hm), hEq]
  by_cases h1 : (bitLength m : Int) - 113 ≤ 0
  · simp only [if_pos h1]
    split_ifs
    · rfl
    · have hm0 : m ≠ 0 := Nat.ne_of_gt hm
      simp [FP.toBool, hm0]
  · simp only [if_neg h1]
    have hsh : ((bitLength m : Int) - 113 - 0).toNat = bitLength m - 113 := by omega
    rw [hsh]
    have hq : 0 < m / 2 ^ (bitLength m - 113) := by
      apply Nat.div_pos _ (Nat.two_pow_pos _)
      refine le_trans (Nat.pow_le_pow_right (by decide) ?_) hlo
      omega
    split_ifs <;> simp_all [FP.toBool]

theorem intToQ_toBool (n : CInt) : (intToQ n).toBool = decide (n.val ≠ 0) := by
  unfold intToQ
  by_cases h : n.val = 0
  · simp [h, FP.toBool]
  · rw [if_neg h, roundNearestEven_int_toBool _ _ (Int.natAbs_pos.mpr h)]
    simp [h]

/-- C1. For every extended-precision value `x` (NaN and the infinities included),
`isfinite(x)` equals `!isnan(x) && !isinf(x)`, where `isnan` and `isinf` are the
backend wrappers, whose `__float128` result is read as a condition. -/
theorem C1_isfinite_eq_not_isnan_and_not_isinf (L : QuadMath) (x : FP) :
    ScalarQ.isfinite L x = (!(ScalarQ.isnan L x).toBool && !(ScalarQ.isinf L x).toBool) := by
  simp only [ScalarQ.isfinite, ScalarQ.isnan, ScalarQ.isinf, intToQ_toBool]
  by_cases h1 : (L.isinfq x).val = 0 <;> by_cases h2 : (L.isnanq x).val = 0 <;> simp [h1, h2]

/-! ### Text I/O -/

/-- C6. For every extended-precision value `x`, `operator<<` leaves the stream as
the insertion of the native double `to_double(x)` leaves it, and `to_string(x)` is
the text a default-constructed string stream holds after that insertion; hence
two values with the same narrowing are written identically. -/
theorem C6_output_through_double {OS IS : Type} (S : StreamLib OS IS) (output : OS) (x y : FP) :
    ScalarQ.operator_lshift S output x = S.insertDouble output (ScalarQ.to_double x) ∧
    ScalarQ.to_string S x = S.str (S.insertDouble S.ostringstream (ScalarQ.to_double x)) ∧
    (ScalarQ.to_double x = ScalarQ.to_double y →
      ScalarQ.operator_lshift S output x = ScalarQ.operator_lshift S output y ∧
      ScalarQ.to_string S x = ScalarQ.to_string S y) := by
  refine ⟨rfl, rfl, fun h => ?_⟩
  simp only [ScalarQ.to_double] at h
  simp only [ScalarQ.to_string, ScalarQ.operator_lshift, h, and_self]

/-- C7. For every input stream, `operator>>` performs the native-double extraction
once: the stream returned is the stream that extraction left, and `x` is left
equal to the widening of the double that extraction produced. -/
theorem C7_input_through_double {OS IS : Type} (S : StreamLib OS IS) (input : IS) (x tmp0 : FP) :
    ScalarQ.operator_rshift S input x tmp0 =
      ((S.extractDouble input tmp0).1,
        ScalarQ.convert_scalar_dq (S.extractDouble input tmp0).2) := rfl

/-! ### Wrappers -/

/-- C8. For every extended-precision value `a`, `abs(a)` equals `fabs(a)`, which
is `fabsq(a)`. -/
theorem C8_abs_eq_fabs (L : QuadMath) (a : FP) :
    ScalarQ.abs L a = ScalarQ.fabs L a ∧ ScalarQ.abs L a = L.fabsq a := ⟨rfl, rfl⟩

/-- The conversion of an `int` to `__float128` is exact. -/
theorem intToQ_toRat (n : CInt) : (intToQ n).toRat = some (n.val : ℚ) := by
  obtain ⟨v, hlo, hhi⟩ := n
  unfold intToQ
  by_cases h : v = 0
  · simp [h, FP.toRat]
  · simp only [if_neg h]
    have hm : 0 < v.natAbs := Int.natAbs_pos.mpr h
    have hlt : v.natAbs < 2 ^ 32 := by omega
    have hb := bitLength_le_of_lt _ _ hlt
    have hb0 := bitLength_pos _ hm
    have hEq : max ((0 : Int) + (bitLength v.natAbs : Int) - ((binary128.prec : Nat) : Int))
        binary128.emin = (bitLength v.natAbs : Int) - 113 := by
      simp only [binary128]; omega
    have hr := roundNearestEven_exact binary128 (decide (v < 0)) v.natAbs 0 hm
      (by rw [hEq]; omega) (by rw [hEq]; simp only [binary128]; omega)
    rw [hEq] at hr
    have hsh : ((0 : Int) - ((bitLength v.natAbs : Int) - 113)).toNat
        = 113 - bitLength v.natAbs := by omega
    rw [hsh] at hr
    rw [hr]
    simp only [FP.toRat, Option.some.injEq]
    have hexp : ((bitLength v.natAbs : Int) - 113) = -((113 - bitLength v.natAbs : Nat) : Int) := by
      omega
    rw [hexp, zpow_neg, zpow_natCast]
    push_cast
    have h2 : ((2 : ℚ) ^ (113 - bitLength v.natAbs)) ≠ 0 := pow_ne_zero _ (by norm_num)
    have habs : ((v.natAbs : ℕ) : ℚ) = |(v : ℚ)| := by
      rw [Nat.cast_natAbs, Int.cast_abs]
    rw [habs]
    by_cases hneg : v < 0
    · have : (v : ℚ) < 0 := by exact_mod_cast hneg
      simp only [hneg, decide_True, if_true, abs_of_neg this]
      field_simp
    · have : (0 : ℚ) ≤ (v : ℚ) := by exact_mod_cast (not_lt.mp hneg)
      simp only [hneg, decide_False, abs_of_nonneg this]
      field_simp

/-- C9. Every wrapper generated by `STDQUAD1` / `STDQUAD2`, and `frexp` and `ldexp`,
returns the result of the same-named libquadmath function applied to the same
arguments in the same order; `isinf` and `isnan` return the library's `int`
converted to the scalar type, which denotes the same number.  The result (with,
for `frexp`, the value stored through the pointer) is the whole effect. -/
theorem C9_wrappers_forward (L : QuadMath) (a b : FP) (n : CInt) :
    (ScalarQ.acos L a = L.acosq a ∧ ScalarQ.acosh L a = L.acoshq a ∧
     ScalarQ.asin L a = L.asinq a ∧ ScalarQ.asinh L a = L.asinhq a ∧
     ScalarQ.atan L a = L.atanq a ∧ ScalarQ.atanh L a = L.atanhq a ∧
     ScalarQ.cbrt L a = L.cbrtq a ∧ ScalarQ.ceil L a = L.ceilq a ∧
     ScalarQ.cosh L a = L.coshq a ∧ ScalarQ.cos L a = L.cosq a ∧
     ScalarQ.erf L a = L.erfq a ∧ ScalarQ.erfc L a = L.erfcq a ∧
     ScalarQ.exp L a = L.expq a ∧ ScalarQ.fabs L a = L.fabsq a ∧
     ScalarQ.floor L a = L.floorq a ∧ ScalarQ.round L a = L.roundq a ∧
     ScalarQ.log L a = L.logq a ∧ ScalarQ.log10 L a = L.log10q a ∧
     ScalarQ.log2 L a = L.log2q a ∧ ScalarQ.sinh L a = L.sinhq a ∧
     ScalarQ.sin L a = L.sinq a ∧ ScalarQ.sqrt L a = L.sqrtq a ∧
     ScalarQ.tanh L a = L.tanhq a ∧ ScalarQ.tan L a = L.tanq a) ∧
    (ScalarQ.atan2 L a b = L.atan2q a b ∧ ScalarQ.fmax L a b = L.fmaxq a b ∧
     ScalarQ.fmin L a b = L.fminq a b ∧ ScalarQ.fmod L a b = L.fmodq a b ∧
     ScalarQ.pow L a b = L.powq a b) ∧
    (ScalarQ.isinf L a = intToQ (L.isinfq a) ∧
     (ScalarQ.isinf L a).toRat = some (((L.isinfq a).val : Int) : ℚ) ∧
     ScalarQ.isnan L a = intToQ (L.isnanq a) ∧
     (ScalarQ.isnan L a).toRat = some (((L.isnanq a).val : Int) : ℚ)) ∧
    (ScalarQ.frexp L a = L.frexpq a ∧ ScalarQ.ldexp L a n = L.ldexpq a n) := by
  refine ⟨?_, ?_, ⟨rfl, intToQ_toRat _, rfl, intToQ_toRat _⟩, rfl, rfl⟩
  · exact ⟨rfl, rfl, rfl, rfl, rfl, rfl, rfl, rfl, rfl, rfl, rfl, rfl, rfl, rfl, rfl, rfl,
      rfl, rfl, rfl, rfl, rfl, rfl, rfl, rfl⟩
  · exact ⟨rfl, rfl, rfl, rfl, rfl⟩

set_option maxRecDepth 8000

/-- C6 at `1` and `1 + 2^-112`, two extended-precision values that narrow to the
double `1`. -/
theorem C6_output_through_double_witness :
    FP.fin false (2 ^ 112) (-112) ≠ FP.fin false (2 ^ 112 + 1) (-112) ∧
    ScalarQ.to_double (FP.fin false (2 ^ 112) (-112))
      = ScalarQ.to_double (FP.fin false (2 ^ 112 + 1) (-112)) ∧
    ScalarQ.operator_lshift listStream [] (FP.fin false (2 ^ 112) (-112))
      = ScalarQ.operator_lshift listStream [] (FP.fin false (2 ^ 112 + 1) (-112)) ∧
    ScalarQ.to_string listStream (FP.fin false (2 ^ 112) (-112))
      = ScalarQ.to_string listStream (FP.fin false (2 ^ 112 + 1) (-112)) :=
  ⟨by decide, by decide,
    (C6_output_through_double listStream [] (FP.fin false (2 ^ 112) (-112))
      (FP.fin false (2 ^ 112 + 1) (-112))).2.2 (by decide)⟩

/-! ### Geometry queries -/

/-- C3. For every cylinder cell with radius `rad ≥ 0` and half-height `y` along axis
`dim`, and every query point `pt` whose distance from that axis is the real
number `r` (`r ≥ 0`, `r²` the sum of the squares of the two off-axis
coordinates), `distInner` classifies the point as inside if and only if
`|pt dim| ≤ y` and `r ≤ rad`.  (The half-height need not be assumed
non-negative.) -/
theorem C3_cylinder_inside_iff (dim : Fin 3) (rad y : ℚ) (pt : Vec3) (r : ℝ)
    (hrad : 0 ≤ rad) (hr0 : 0 ≤ r)
    (hr : r ^ 2 = ∑ i : Fin 3, if i = dim then (0 : ℝ) else ((pt i : ℚ) : ℝ) ^ 2) :
    CylinderGeomCell.distInner dim.val rad y pt = true ↔
      |pt dim| ≤ y ∧ r ≤ ((rad : ℚ) : ℝ) := by
  have hax : CylinderGeomCell.axial dim.val pt = pt dim := by
    fin_cases dim <;> simp [CylinderGeomCell.axial]
  have key : ((CylinderGeomCell.radialSq dim.val pt : ℚ) : ℝ) = r ^ 2 := by
    rw [hr]
    fin_cases dim <;> simp [CylinderGeomCell.radialSq, Fin.sum_univ_three] <;> ring
  have hradR : (0 : ℝ) ≤ ((rad : ℚ) : ℝ) := by exact_mod_cast hrad
  have hsq : CylinderGeomCell.radialSq dim.val pt ≤ rad * rad ↔ r ≤ ((rad : ℚ) : ℝ) := by
    have hcast : CylinderGeomCell.radialSq dim.val pt ≤ rad * rad ↔
        ((CylinderGeomCell.radialSq dim.val pt : ℚ) : ℝ) ≤ ((rad : ℚ) : ℝ) * ((rad : ℚ) : ℝ) := by
      rw [← Rat.cast_mul, Rat.cast_le]
    rw [hcast, key]
    constructor
    · intro h
      by_contra hlt
      push_neg at hlt
      nlinarith
    · intro h
      nlinarith
  simp only [CylinderGeomCell.distInner, Bool.and_eq_true, decide_eq_true_eq, hax, hsq]

/-- C3 on the cylinder of radius 5 and half-height 2 along the second axis and the
point `(3, 1, 4)`, at distance 5 from the axis. -/
theorem C3_cylinder_inside_iff_witness :
    (0 : ℚ) ≤ 5 ∧ (0 : ℝ) ≤ 5 ∧
    ((5 : ℝ) ^ 2 = ∑ i : Fin 3,
      if i = (1 : Fin 3) then (0 : ℝ) else (((![3, 1, 4] : Vec3) i : ℚ) : ℝ) ^ 2) ∧
    (CylinderGeomCell.distInner (1 : Fin 3).val 5 2 ![3, 1, 4] = true ↔
      |(![3, 1, 4] : Vec3) 1| ≤ 2 ∧ (5 : ℝ) ≤ ((5 : ℚ) : ℝ)) :=
  ⟨by norm_num, by norm_num, by simp [Fin.sum_univ_three]; norm_num,
    C3_cylinder_inside_iff 1 5 2 ![3, 1, 4] 5 (by norm_num) (by norm_num)
      (by simp [Fin.sum_univ_three]; norm_num)⟩

/-- C4. For every ray origin and direction, the ray query of a composite cell with
zero children is the no-hit sentinel: both `rayQueryInner` on the empty child
list and `rayQuery` of such a cell, wherever it lives on the heap. -/
theorem C4_empty_composite_no_hit (childQuery : Nat → Vec3 → Vec3 → RayDist)
    (cylinderRay : Nat → ℚ → ℚ → Vec3 → Vec3 → RayDist) (h : Heap) (T : Mat4) (res : Int)
    (fuel : Nat) (x0 dir : Vec3) :
    CompositeGeomCell.rayQueryInner childQuery [] x0 dir = .noHit ∧
    rayQuery cylinderRay (h ++ [.composite T res []]) (fuel + 1) h.length x0 dir = .noHit := by
  refine ⟨rfl, ?_⟩
  simp [rayQuery, CompositeGeomCell.rayQueryInner]

/-! ### The evaluation driver -/

/-- C10 (the code at three supplied arguments).  The argument-count check passes,
and the fourth entry read, `argc[4]`, is not a supplied argument. -/
theorem C10_check_passes_with_three_arguments :
    mainEvaluate.checkPasses ["mainEvaluate", "hand.urdf", "10", "object.dat"] = true ∧
    mainEvaluate.readArgs ["mainEvaluate", "hand.urdf", "10", "object.dat"]
      = .ok [some "hand.urdf", some "10", some "object.dat", none] := by
  constructor <;> rfl

/-! ### Serialization round trip -/

theorem readScalars_append (qs : List ℚ) (rest : List Tok) :
    readScalars qs.length (qs.map Tok.scalar ++ rest) = some (qs, rest) := by
  induction qs with
  | nil => rfl
  | cons q qs ih => simp [readScalars, ih]

theorem readMat4_writeMat4 (T : Mat4) (rest : List Tok) :
    readMat4 (writeMat4 T ++ rest) = some (T, rest) := by
  obtain ⟨l, hl⟩ := T
  have := readScalars_append l rest
  rw [hl] at this
  simp [readMat4, writeMat4, this, hl]

theorem writeMat4_length (T : Mat4) : (writeMat4 T).length = 16 := by
  simp [writeMat4, T.property]

theorem indexOf_append_new (a : Nat) (reg new : List Nat) (h : a ∉ reg) :
    (reg ++ a :: new).indexOf a = reg.length := by
  rw [List.indexOf_append_of_not_mem h, List.indexOf_cons_self, Nat.add_zero]

theorem relabelCell_congr (f g : Nat → Nat) (res0 : Int) (c : Cell)
    (hfg : ∀ x ∈ c.children, f x = g x) : relabelCell f res0 c = relabelCell g res0 c := by
  cases c with
  | cylinder T r dim rad y => rfl
  | composite T r ch =>
    simp only [Cell.children] at hfg
    simp only [relabelCell, Cell.composite.injEq, true_and]
    exact List.map_congr_left hfg

/-- Relabelling is unchanged by a registry extension past the children. -/
theorem relabelCell_extend (h : Heap) (res0 : Int) (reg more : List Nat) (b : Nat)
    (hb : ∀ c ∈ (cellAt h b).children, c ∈ reg) :
    relabelCell (fun c => (reg ++ more).indexOf c) res0 (cellAt h b)
      = relabelCell (fun c => reg.indexOf c) res0 (cellAt h b) :=
  relabelCell_congr _ _ res0 _ (fun x hx => List.indexOf_append_of_mem (hb x hx))

theorem readChildren_writeChildren (h : Heap) (res0 : Int) (fuel : Nat)
    (ih : ReadsBack h res0 fuel) :
    ∀ (ch regA : List Nat) (ts : List Tok) (reg1 : List Nat),
      writeChildren (writeCell h fuel) regA ch = some (ts, reg1) →
      ∃ newC : List Nat, reg1 = regA ++ newC ∧ (∀ c ∈ ch, c ∈ reg1) ∧
        (∀ b ∈ newC, ∀ c ∈ (cellAt h b).children, c ∈ reg1) ∧
        ∀ (fuelR : Nat) (rest : List Tok) (regR : Heap),
          ts.length ≤ fuelR → regR.length = regA.length →
          readChildren (readCell res0 fuelR) ch.length (ts ++ rest) regR =
            some (ch.map (fun c => reg1.indexOf c), rest,
              regR ++ newC.map
                (fun b => relabelCell (fun c => reg1.indexOf c) res0 (cellAt h b))) := by
  intro ch
  induction ch with
  | nil =>
    intro regA ts reg1 hw
    simp only [writeChildren, Option.some.injEq, Prod.mk.injEq] at hw
    obtain ⟨rfl, rfl⟩ := hw
    exact ⟨[], by simp, by simp, by simp, by intros; simp [readChildren]⟩
  | cons c cs ihl =>
    intro regA ts reg1 hw
    simp only [writeChildren] at hw
    cases h1 : writeCell h fuel regA c with
    | none => simp [h1] at hw
    | some p1 =>
      obtain ⟨t1, r1⟩ := p1
      simp only [h1] at hw
      cases h2 : writeChildren (writeCell h fuel) r1 cs with
      | none => simp [h2] at hw
      | some p2 =>
        obtain ⟨t2, r2⟩ := p2
        simp only [h2, Option.some.injEq, Prod.mk.injEq] at hw
        obtain ⟨rfl, rfl⟩ := hw
        obtain ⟨new1, hr1, hc1, hcl1, hread1⟩ := ih regA c t1 r1 h1
        obtain ⟨new2, hr2, hc2, hcl2, hread2⟩ := ihl r1 t2 r2 h2
        refine ⟨new1 ++ new2, by rw [hr2, hr1, List.append_assoc], ?_, ?_, ?_⟩
        · intro x hx
          rcases List.mem_cons.mp hx with rfl | hx
          · rw [hr2]; exact List.mem_append_left _ hc1
          · exact hc2 x hx
        · intro b hb x hx
          rcases List.mem_append.mp hb with hb | hb
          · rw [hr2]; exact List.mem_append_left _ (hcl1 b hb x hx)
          · exact hcl2 b hb x hx
        · intro fuelR rest regR hlen hreg
          have hl1 : t1.length ≤ fuelR := by
            simp only [List.length_append] at hlen; omega
          have hl2 : t2.length ≤ fuelR := by
            simp only [List.length_append] at hlen; omega
          have e1 := hread1 fuelR (t2 ++ rest) regR hl1 hreg
          have hreg2 : (regR ++ new1.map
              (fun b => relabelCell (fun c => r1.indexOf c) res0 (cellAt h b))).length
                = r1.length := by
            simp [hr1, hreg]
          have e2 := hread2 fuelR rest _ hl2 hreg2
          have hidx : r1.indexOf c = r2.indexOf c := by
            rw [hr2, List.indexOf_append_of_mem hc1]
          have hmap : new1.map (fun b => relabelCell (fun c => r1.indexOf c) res0 (cellAt h b))
              = new1.map (fun b => relabelCell (fun c => r2.indexOf c) res0 (cellAt h b)) := by
            apply List.map_congr_left
            intro b hb
            rw [hr2]
            exact (relabelCell_extend h res0 r1 new2 b (hcl1 b hb)).symm
          rw [List.append_assoc, hmap] at e2
          simp only [List.length_cons, readChildren, List.append_assoc, e1, hmap, e2,
            List.map_cons, List.map_append, hidx]

theorem cellAt_of_getElem? (h : Heap) (a : Nat) (c : Cell) (hc : h[a]? = some c) :
    cellAt h a = c := by
  simp [cellAt, List.getD, hc]

/-- Every `writeCell` call is read back. -/
theorem readsBack_all (h : Heap) (res0 : Int) : ∀ fuel : Nat, ReadsBack h res0 fuel := by
  intro fuel
  induction fuel with
  | zero =>
    intro reg a toks reg1 hw
    simp [writeCell] at hw
  | succ k ih =>
    intro reg a toks reg1 hw
    simp only [writeCell] at hw
    by_cases hmem : a ∈ reg
    · rw [if_pos hmem] at hw
      simp only [Option.some.injEq, Prod.mk.injEq] at hw
      obtain ⟨rfl, rfl⟩ := hw
      refine ⟨[], by simp, hmem, by simp, ?_⟩
      intro fuelR rest regR hlen hreg
      cases fuelR with
      | zero => simp at hlen
      | succ n =>
        have hlt : reg.indexOf a < regR.length := by
          rw [hreg]; exact List.indexOf_lt_length.mpr hmem
        simp [readCell, hlt]
    · rw [if_neg hmem] at hw
      cases hc : h[a]? with
      | none => simp [hc] at hw
      | some cell =>
        have hcell := cellAt_of_getElem? h a cell hc
        cases cell with
        | cylinder T r dim rad y =>
          simp only [hc, Option.some.injEq, Prod.mk.injEq] at hw
          obtain ⟨rfl, rfl⟩ := hw
          refine ⟨[a], rfl, by simp, ?_, ?_⟩
          · intro b hb c hcm
            rw [List.mem_singleton] at hb
            subst hb
            rw [hcell] at hcm
            simp [Cell.children] at hcm
          · intro fuelR rest regR hlen hreg
            cases fuelR with
            | zero => simp at hlen
            | succ n =>
              have hidx : (reg ++ [a]).indexOf a = regR.length := by
                rw [hreg]; exact indexOf_append_new a reg [] hmem
              simp only [readCell, List.cons_append, List.append_assoc, if_true,
                readMat4_writeMat4]
              simp [hidx, hcell, relabelCell]
        | composite T r ch =>
          simp only [hc] at hw
          cases hch : writeChildren (writeCell h k) (reg ++ [a]) ch with
          | none => simp [hch] at hw
          | some p =>
            obtain ⟨ts, r1⟩ := p
            simp only [hch, Option.some.injEq, Prod.mk.injEq] at hw
            obtain ⟨rfl, rfl⟩ := hw
            obtain ⟨newC, hr0, hall, hcl, hread⟩ :=
              readChildren_writeChildren h res0 k ih ch (reg ++ [a]) ts r1 hch
            have hr1 : r1 = reg ++ a :: newC := by
              rw [hr0, List.append_assoc, List.singleton_append]
            refine ⟨a :: newC, hr1, ?_, ?_, ?_⟩
            · rw [hr1]; simp
            · intro b hb c hcm
              rcases List.mem_cons.mp hb with rfl | hb
              · rw [hcell] at hcm
                exact hall c hcm
              · exact hcl b hb c hcm
            · intro fuelR rest regR hlen hreg
              cases fuelR with
              | zero => simp at hlen
              | succ n =>
                have hidx : r1.indexOf a = regR.length := by
                  rw [hreg, hr1]; exact indexOf_append_new a reg newC hmem
                have hts : ts.length ≤ n := by
                  simp only [List.length_cons, List.length_append] at hlen
                  omega
                have hregR : (regR ++ [Cell.composite T res0 []]).length
                    = (reg ++ [a]).length := by
                  simp [hreg]
                have e := hread n rest (regR ++ [Cell.composite T res0 []]) hts hregR
                have hne : ¬ ("composite" = "cylinder") := by decide
                simp only [readCell, List.cons_append, List.append_assoc, if_true,
                  readMat4_writeMat4, if_neg hne]
                simp only [Int.natCast_nonneg, Int.toNat_natCast, if_true, e, hidx]
                simp [hcell, relabelCell, hidx]

/-! ### Writing terminates on construction-ordered heaps -/

theorem children_lt_of_constructionOrdered (h : Heap) (hord : h.constructionOrdered)
    (a : Nat) (c : Cell) (hc : h[a]? = some c) : ∀ b ∈ c.children, b < a :=
  hord (a, c) (List.mk_mem_enum_iff_getElem?.mpr hc)

theorem writeChildren_succeeds (h : Heap) (k : Nat)
    (ih : ∀ a reg, a < k → a < h.length → ∃ toks reg1, writeCell h k reg a = some (toks, reg1)) :
    ∀ (ch reg : List Nat), (∀ b ∈ ch, b < k ∧ b < h.length) →
      ∃ ts reg1, writeChildren (writeCell h k) reg ch = some (ts, reg1) := by
  intro ch
  induction ch with
  | nil => intro reg _; exact ⟨[], reg, rfl⟩
  | cons c cs ihl =>
    intro reg hall
    obtain ⟨hk, hlen⟩ := hall c (List.mem_cons_self c cs)
    obtain ⟨t1, r1, e1⟩ := ih c reg hk hlen
    obtain ⟨t2, r2, e2⟩ := ihl r1 (fun b hb => hall b (List.mem_cons_of_mem c hb))
    exact ⟨t1 ++ t2, r2, by simp [writeChildren, e1, e2]⟩

/-- With more fuel than the address, `writeCell` produces a record. -/
theorem writeCell_succeeds (h : Heap) (hord : h.constructionOrdered) :
    ∀ (fuel a : Nat) (reg : List Nat), a < fuel → a < h.length →
      ∃ toks reg1, writeCell h fuel reg a = some (toks, reg1) := by
  intro fuel
  induction fuel with
  | zero => intro a reg hlt; omega
  | succ k ih =>
    intro a reg hlt hlen
    simp only [writeCell]
    by_cases hmem : a ∈ reg
    · rw [if_pos hmem]; exact ⟨_, _, rfl⟩
    · rw [if_neg hmem]
      have hc : h[a]? = some h[a] := List.getElem?_eq_getElem hlen
      cases hcell : h[a] with
      | cylinder T r dim rad y =>
        rw [hcell] at hc
        simp only [hc]
        exact ⟨_, _, rfl⟩
      | composite T r ch =>
        rw [hcell] at hc
        simp only [hc]
        have hlt2 := children_lt_of_constructionOrdered h hord a _ hc
        simp only [Cell.children] at hlt2
        obtain ⟨ts, r1, e⟩ := writeChildren_succeeds h k (fun a reg => ih a reg) ch (reg ++ [a])
          (fun b hb => ⟨by have := hlt2 b hb; omega, by have := hlt2 b hb; omega⟩)
        simp only [e]
        exact ⟨_, _, rfl⟩

/-! ### The heap read back -/

/-- Reading what `write` wrote gives the registry's cells, relabelled by registry
position, with the root at its registry position. -/
theorem read_write (h : Heap) (res0 : Int) (root : Nat) (toks : List Tok) (reg : List Nat)
    (hw : write h root = some (toks, reg)) :
    root ∈ reg ∧ (∀ b ∈ reg, ∀ c ∈ (cellAt h b).children, c ∈ reg) ∧
    read res0 toks = some (reg.indexOf root,
      reg.map (fun b => relabelCell (fun c => reg.indexOf c) res0 (cellAt h b))) := by
  obtain ⟨new, hreg, hmem, hcl, hread⟩ := readsBack_all h res0 (h.length + 1) [] root toks reg hw
  rw [List.nil_append] at hreg
  subst hreg
  refine ⟨hmem, hcl, ?_⟩
  have e := hread (toks.length + 1) [] [] (Nat.le_succ _) rfl
  rw [List.append_nil, List.nil_append] at e
  simp only [read, e]

theorem getChild_relabel (h : Heap) (res0 : Int) (reg : List Nat)
    (hcl : ∀ b ∈ reg, ∀ c ∈ (cellAt h b).children, c ∈ reg)
    (a i c : Nat) (ha : a ∈ reg) (hc : getChild h a i = some c) :
    c ∈ reg ∧
    getChild (reg.map (fun b => relabelCell (fun c => reg.indexOf c) res0 (cellAt h b)))
      (reg.indexOf a) i = some (reg.indexOf c) := by
  unfold getChild at hc
  cases hcell : h[a]? with
  | none => simp [hcell] at hc
  | some cell =>
    cases cell with
    | cylinder T r dim rad y => simp [hcell] at hc
    | composite T r ch =>
      simp only [hcell] at hc
      have hat := cellAt_of_getElem? h a _ hcell
      have hcmem : c ∈ ch := List.getElem?_mem hc
      have hcreg : c ∈ reg := hcl a ha c (by rw [hat]; exact hcmem)
      refine ⟨hcreg, ?_⟩
      unfold getChild
      rw [List.getElem?_map, List.getElem?_indexOf ha]
      simp only [Option.map_some', hat, relabelCell, List.getElem?_map, hc]

theorem follow_relabel (h : Heap) (res0 : Int) (reg : List Nat)
    (hcl : ∀ b ∈ reg, ∀ c ∈ (cellAt h b).children, c ∈ reg) :
    ∀ (path : List Nat) (a b : Nat), a ∈ reg → follow h a path = some b →
      b ∈ reg ∧
      follow (reg.map (fun b => relabelCell (fun c => reg.indexOf c) res0 (cellAt h b)))
        (reg.indexOf a) path = some (reg.indexOf b) := by
  intro path
  induction path with
  | nil =>
    intro a b ha hf
    simp only [follow, Option.some.injEq] at hf
    subst hf
    exact ⟨ha, rfl⟩
  | cons i path ih =>
    intro a b ha hf
    simp only [follow] at hf
    cases hg : getChild h a i with
    | none => simp [hg] at hf
    | some c =>
      simp only [hg] at hf
      obtain ⟨hcreg, hg1⟩ := getChild_relabel h res0 reg hcl a i c ha hg
      obtain ⟨hb, hf1⟩ := ih c b hcreg hf
      exact ⟨hb, by simp only [follow, hg1, hf1]⟩

/-! ### `setRes` -/

theorem withRes_withRes (r : Int) (c : Cell) : (c.withRes r).withRes r = c.withRes r := by
  cases c <;> rfl

theorem withRes_res (r : Int) (c : Cell) : (c.withRes r).res = r := by
  cases c <;> rfl

theorem withRes_children (r : Int) (c : Cell) : (c.withRes r).children = c.children := by
  cases c <;> rfl

theorem setRes_fold_invariant (k : Nat) (r : Int) (P : Heap → Prop)
    (step : ∀ h1 c1, P h1 → P (setRes k h1 c1 r)) :
    ∀ (l : List Nat) (h1 : Heap), P h1 → P (l.foldl (fun h2 c1 => setRes k h2 c1 r) h1) := by
  intro l
  induction l with
  | nil => intro h1 hp; exact hp
  | cons c cs ih => intro h1 hp; exact ih _ (step h1 c hp)

/-- `setRes` leaves each cell as it was or replaces its resolution. -/
theorem setRes_getElem? (r : Int) (b : Nat) :
    ∀ (fuel : Nat) (h : Heap) (a : Nat),
      (setRes fuel h a r)[b]? = h[b]? ∨ (setRes fuel h a r)[b]? = (h[b]?).map (Cell.withRes r) := by
  intro fuel
  induction fuel with
  | zero => intro h a; exact Or.inl rfl
  | succ k ih =>
    intro h a
    simp only [setRes]
    cases hc : h[a]? with
    | none => exact Or.inl rfl
    | some c =>
      simp only
      apply setRes_fold_invariant k r
        (fun h1 => h1[b]? = h[b]? ∨ h1[b]? = (h[b]?).map (Cell.withRes r))
      · intro h1 c1 hp
        rcases ih h1 c1 with e | e
        · rw [e]; exact hp
        · rw [e]
          rcases hp with e1 | e1
          · rw [e1]; exact Or.inr rfl
          · rw [e1]
            right
            cases h[b]? with
            | none => rfl
            | some x => simp [withRes_withRes]
      · by_cases hab : a = b
        · subst hab
          right
          have hlt : a < h.length := by
            rcases Nat.lt_or_ge a h.length with hl | hl
            · exact hl
            · rw [List.getElem?_eq_none hl] at hc; cases hc
          rw [List.getElem?_set_self hlt, hc]
          rfl
        · left
          rw [List.getElem?_set_ne hab]

/-- `setRes` on a live cell sets that cell's resolution. -/
theorem setRes_target (r : Int) (fuel : Nat) (h : Heap) (a : Nat) (c : Cell)
    (hc : h[a]? = some c) : (setRes (fuel + 1) h a r)[a]? = some (c.withRes r) := by
  simp only [setRes, hc]
  apply setRes_fold_invariant fuel r (fun h1 => h1[a]? = some (c.withRes r))
  · intro h1 c1 hp
    rcases setRes_getElem? r a fuel h1 c1 with e | e
    · rw [e]; exact hp
    · rw [e, hp]; simp [withRes_withRes]
  · have hlt : a < h.length := by
      rcases Nat.lt_or_ge a h.length with hl | hl
      · exact hl
      · rw [List.getElem?_eq_none hl] at hc; cases hc
    exact List.getElem?_set_self hlt

/-- `setRes` does not change any child slot. -/
theorem setRes_getChild (r : Int) (fuel : Nat) (h : Heap) (a p i : Nat) :
    getChild (setRes fuel h a r) p i = getChild h p i := by
  unfold getChild
  rcases setRes_getElem? r p fuel h a with e | e
  · rw [e]
  · rw [e]
    cases h[p]? with
    | none => rfl
    | some x => cases x <;> rfl

/-! ### Shared children survive a write and read -/

/-- C5. For every tree (a construction-ordered heap `h` with root `root`) in which a
cell `c` sits in child slot `i` of composite `p1` and in child slot `j` of another
composite `p2`, both reached from the root by the slot paths `path1`, `path2`:
`write` produces a stream, `read` of that stream produces a tree, the same slot
paths lead to two distinct parents in it, the slots `i` and `j` of these parents
hold one and the same cell, and `setRes` through the first parent's slot is
observed through the second parent's slot. -/
theorem C5_shared_child_roundtrip (h : Heap) (root : Nat) (res0 : Int)
    (hord : h.constructionOrdered) (hroot : root < h.length)
    (path1 path2 : List Nat) (p1 p2 i j c : Nat)
    (hp1 : follow h root path1 = some p1) (hp2 : follow h root path2 = some p2)
    (hne : p1 ≠ p2)
    (hc1 : getChild h p1 i = some c) (hc2 : getChild h p2 j = some c) :
    ∃ (toks : List Tok) (reg : List Nat) (root1 : Nat) (h1 : Heap),
      write h root = some (toks, reg) ∧ read res0 toks = some (root1, h1) ∧
      ∃ q1 q2 c1 : Nat,
        follow h1 root1 path1 = some q1 ∧ follow h1 root1 path2 = some q2 ∧ q1 ≠ q2 ∧
        getChild h1 q1 i = some c1 ∧ getChild h1 q2 j = some c1 ∧
        ∀ (fuel : Nat) (r : Int),
          resThrough (setResThrough (fuel + 1) h1 q1 i r) q2 j = some r := by
  obtain ⟨toks, reg, hw⟩ :=
    writeCell_succeeds h hord (h.length + 1) root [] (Nat.lt_succ_of_lt hroot) hroot
  obtain ⟨hrootmem, hcl, hread⟩ := read_write h res0 root toks reg hw
  obtain ⟨hm1, hf1⟩ := follow_relabel h res0 reg hcl path1 root p1 hrootmem hp1
  obtain ⟨hm2, hf2⟩ := follow_relabel h res0 reg hcl path2 root p2 hrootmem hp2
  obtain ⟨hmc, hg1⟩ := getChild_relabel h res0 reg hcl p1 i c hm1 hc1
  obtain ⟨_, hg2⟩ := getChild_relabel h res0 reg hcl p2 j c hm2 hc2
  refine ⟨toks, reg, _, _, hw, hread, reg.indexOf p1, reg.indexOf p2, reg.indexOf c,
    hf1, hf2, ?_, hg1, hg2, ?_⟩
  · intro heq
    exact hne ((List.indexOf_inj hm1 hm2).mp heq)
  · intro fuel r
    have hlt : reg.indexOf c < reg.length := List.indexOf_lt_length.mpr hmc
    have hcell : (reg.map (fun b => relabelCell (fun c => reg.indexOf c) res0 (cellAt h b)))[
        reg.indexOf c]? = some (relabelCell (fun c => reg.indexOf c) res0 (cellAt h c)) := by
      rw [List.getElem?_map, List.getElem?_indexOf hmc]; rfl
    simp only [setResThrough, hg1, resThrough, setRes_getChild, hg2, getRes,
      setRes_target r fuel _ _ _ hcell, Option.map_some', withRes_res]

/-- C5 on the tree `sharedChildHeap`: the cylinder at address 0 is held by the
composites at addresses 1 and 2, the two children of the root at address 3. -/
theorem C5_shared_child_roundtrip_witness :
    sharedChildHeap.constructionOrdered ∧ 3 < sharedChildHeap.length ∧
    follow sharedChildHeap 3 [0] = some 1 ∧ follow sharedChildHeap 3 [1] = some 2 ∧
    getChild sharedChildHeap 1 0 = some 0 ∧ getChild sharedChildHeap 2 0 = some 0 ∧
    ∃ (toks : List Tok) (reg : List Nat) (root1 : Nat) (h1 : Heap),
      write sharedChildHeap 3 = some (toks, reg) ∧ read 4 toks = some (root1, h1) ∧
      ∃ q1 q2 c1 : Nat,
        follow h1 root1 [0] = some q1 ∧ follow h1 root1 [1] = some q2 ∧ q1 ≠ q2 ∧
        getChild h1 q1 0 = some c1 ∧ getChild h1 q2 0 = some c1 ∧
        ∀ (fuel : Nat) (r : Int),
          resThrough (setResThrough (fuel + 1) h1 q1 0 r) q2 0 = some r :=
  ⟨by decide, by decide, rfl, rfl, rfl, rfl,
    C5_shared_child_roundtrip sharedChildHeap 3 4 (by decide) (by decide) [0] [1] 1 2 0 0 0
      rfl rfl (by decide) rfl rfl⟩

/-! ### Initial parameters -/

/-- Widening a `float` to `double` keeps the number it denotes. -/
theorem convert_binary64_of_binary32 (v : FP) (h : v.representable binary32) :
    (convert binary64 v).toRat = v.toRat := by
  cases v with
  | nan => rfl
  | inf s => rfl
  | zero s => rfl
  | fin s m e =>
    obtain ⟨hm, hlt, hlo, hhi, _⟩ := h
    simp only [binary32] at hlt hlo hhi
    have hb : bitLength m ≤ 24 := bitLength_le_of_lt m 24 hlt
    have hb0 := bitLength_pos m hm
    have hEq : max (e + (bitLength m : Int) - ((binary64.prec : Nat) : Int)) binary64.emin
        = e - ((53 - bitLength m : Nat) : Int) := by
      simp only [binary64]; omega
    have hr := roundNearestEven_exact binary64 s m e hm (by rw [hEq]; omega)
      (by rw [hEq]; simp only [binary64]; omega)
    rw [hEq] at hr
    have hsh : (e - (e - ((53 - bitLength m : Nat) : Int))).toNat = 53 - bitLength m := by
      omega
    rw [hsh] at hr
    simp only [convert, hr, FP.toRat, Option.some.injEq]
    have h2 : (2 : ℚ) ≠ 0 := by norm_num
    rw [zpow_sub₀ h2, zpow_natCast]
    have hp : ((2 : ℚ) ^ (53 - bitLength m)) ≠ 0 := pow_ne_zero _ h2
    push_cast
    field_simp
    cases s <;> simp <;> ring

theorem roundNearestEven_tail_representable (f : Format) (hprec : 1 ≤ f.prec)
    (neg : Bool) (q1 : Nat) (E : Int) (hEmin : f.emin ≤ E) (hq1 : q1 ≤ 2 ^ f.prec)
    (hcanon : E ≠ f.emin → 2 ^ (f.prec - 1) ≤ q1) :
    (if q1 = 0 then FP.zero neg
      else if q1 = 2 ^ f.prec then
        (if f.emax < E + 1 then FP.inf neg else FP.fin neg (2 ^ (f.prec - 1)) (E + 1))
      else if f.emax < E then FP.inf neg
      else FP.fin neg q1 E).representable f := by
  have hpp : 0 < 2 ^ (f.prec - 1) := Nat.two_pow_pos _
  have hpp2 : 2 ^ (f.prec - 1) < 2 ^ f.prec :=
    Nat.pow_lt_pow_right (by decide) (by omega)
  split_ifs with h0 h1 h2 h3
  · trivial
  · trivial
  · exact ⟨hpp, hpp2, by omega, by omega, Or.inl (Nat.le_refl _)⟩
  · trivial
  · refine ⟨by omega, by omega, hEmin, by omega, ?_⟩
    by_cases hcase : E = f.emin
    · exact Or.inr hcase
    · exact Or.inl (hcanon hcase)

/-- The result of rounding is a datum of the format. -/
theorem roundNearestEven_representable (f : Format) (hprec : 1 ≤ f.prec)
    (neg : Bool) (m : Nat) (e : Int) :
    (roundNearestEven f neg m e).representable f := by
  unfold roundNearestEven
  by_cases hm0 : m = 0
  · simp [hm0, FP.representable]
  · have hm : 0 < m := Nat.pos_of_ne_zero hm0
    have hb0 := bitLength_pos m hm
    have hlo := two_pow_bitLength_le m hm
    have hhi := lt_two_pow_bitLength m
    simp only [if_neg hm0]
    have hEmin : f.emin ≤ max (e + (bitLength m : Int) - (f.prec : Int)) f.emin :=
      le_max_right _ _
    have hEleft : e + (bitLength m : Int) - (f.prec : Int)
        ≤ max (e + (bitLength m : Int) - (f.prec : Int)) f.emin := le_max_left _ _
    have hEcase : max (e + (bitLength m : Int) - (f.prec : Int)) f.emin ≠ f.emin →
        max (e + (bitLength m : Int) - (f.prec : Int)) f.emin
          = e + (bitLength m : Int) - (f.prec : Int) := by
      intro h; omega
    generalize max (e + (bitLength m : Int) - (f.prec : Int)) f.emin = E
      at hEmin hEleft hEcase ⊢
    by_cases hE : E ≤ e
    · simp only [if_pos hE]
      by_cases hov : f.emax < E
      · simp [hov, FP.representable]
      · simp only [if_neg hov, FP.representable]
        have hk : bitLength m + (e - E).toNat ≤ f.prec := by omega
        refine ⟨Nat.mul_pos hm (Nat.two_pow_pos _), ?_, hEmin, not_lt.mp hov, ?_⟩
        · calc m * 2 ^ (e - E).toNat
              < 2 ^ bitLength m * 2 ^ (e - E).toNat :=
                Nat.mul_lt_mul_of_pos_right hhi (Nat.two_pow_pos _)
            _ = 2 ^ (bitLength m + (e - E).toNat) := (pow_add 2 _ _).symm
            _ ≤ 2 ^ f.prec := Nat.pow_le_pow_right (by decide) hk
        · by_cases hcase : E = f.emin
          · exact Or.inr hcase
          · left
            have hEq := hEcase hcase
            have hsh : (e - E).toNat = f.prec - bitLength m := by omega
            rw [hsh]
            calc 2 ^ (f.prec - 1) = 2 ^ (bitLength m - 1 + (f.prec - bitLength m)) := by
                  congr 1; omega
              _ = 2 ^ (bitLength m - 1) * 2 ^ (f.prec - bitLength m) := pow_add 2 _ _
              _ ≤ m * 2 ^ (f.prec - bitLength m) := Nat.mul_le_mul_right _ hlo
    · simp only [if_neg hE]
      have hq : m / 2 ^ (E - e).toNat < 2 ^ f.prec := by
        apply Nat.div_lt_of_lt_mul
        calc m < 2 ^ bitLength m := hhi
          _ ≤ 2 ^ ((E - e).toNat + f.prec) := Nat.pow_le_pow_right (by decide) (by omega)
          _ = 2 ^ (E - e).toNat * 2 ^ f.prec := pow_add 2 _ _
      apply roundNearestEven_tail_representable f hprec neg _ E hEmin
      · split_ifs <;> omega
      · intro hcase
        have hEq := hEcase hcase
        have hsh : (E - e).toNat = bitLength m - f.prec := by omega
        have hge : 2 ^ (f.prec - 1) ≤ m / 2 ^ (E - e).toNat := by
          rw [hsh, Nat.le_div_iff_mul_le (Nat.two_pow_pos _)]
          calc 2 ^ (f.prec - 1) * 2 ^ (bitLength m - f.prec)
                = 2 ^ (f.prec - 1 + (bitLength m - f.prec)) := (pow_add 2 _ _).symm
            _ = 2 ^ (bitLength m - 1) := by congr 1; omega
            _ ≤ m := hlo
        split_ifs <;> omega

theorem readFloat_representable (d : Decimal) : (readFloat d).representable binary32 := by
  unfold readFloat roundRatio
  split_ifs
  · trivial
  · exact roundNearestEven_representable binary32 (by decide) _ _ _

theorem extractFloat_of_ne_none (d : Decimal) (h : mainEvaluate.extractFloat d ≠ none) :
    mainEvaluate.extractFloat d = some (readFloat d) := by
  unfold mainEvaluate.extractFloat at h ⊢
  cases hv : readFloat d <;> simp [hv] at h ⊢

theorem extractFloat_of_isSome (d : Decimal) (h : (mainEvaluate.extractFloat d).isSome = true) :
    mainEvaluate.extractFloat d = some (readFloat d) :=
  extractFloat_of_ne_none d (by
    intro hn
    rw [hn] at h
    cases h)

/-- The loop replaces one entry per number, up to the first number the extraction
rejects. -/
theorem initializeParamsLoop_numbers (fin : List Decimal) :
    ∀ (done rest : List FP),
      (fin.takeWhile (fun d => (mainEvaluate.extractFloat d).isSome)).length ≤ rest.length →
      mainEvaluate.initializeParamsLoop fin done.length (done ++ rest)
        = some (done
            ++ (fin.takeWhile (fun d => (mainEvaluate.extractFloat d).isSome)).map
                (fun d => convert binary64 (readFloat d))
            ++ rest.drop
                (fin.takeWhile (fun d => (mainEvaluate.extractFloat d).isSome)).length) := by
  induction fin with
  | nil => intro done rest _; simp [mainEvaluate.initializeParamsLoop]
  | cons d ds ih =>
    intro done rest hlen
    by_cases hacc : (mainEvaluate.extractFloat d).isSome = true
    · have hx := extractFloat_of_isSome d hacc
      have htw : (d :: ds).takeWhile (fun d => (mainEvaluate.extractFloat d).isSome)
          = d :: ds.takeWhile (fun d => (mainEvaluate.extractFloat d).isSome) := by
        rw [List.takeWhile_cons, if_pos hacc]
      rw [htw] at hlen ⊢
      cases rest with
      | nil => simp at hlen
      | cons y ys =>
        have hlt : done.length < (done ++ y :: ys).length := by simp
        have hset : (done ++ y :: ys).set done.length (convert binary64 (readFloat d))
            = (done ++ [convert binary64 (readFloat d)]) ++ ys := by
          rw [List.set_append_right _ _ (Nat.le_refl _)]
          simp
        have hlen2 : (ds.takeWhile (fun d => (mainEvaluate.extractFloat d).isSome)).length
            ≤ ys.length := by
          simp only [List.length_cons] at hlen; omega
        have e := ih (done ++ [convert binary64 (readFloat d)]) ys hlen2
        simp only [List.length_append, List.length_singleton] at e
        simp only [List.map_cons, mainEvaluate.initializeParamsLoop, hx, if_pos hlt, hset, e]
        simp
    · have hnone : mainEvaluate.extractFloat d = none := by
        cases hv : mainEvaluate.extractFloat d with
        | none => rfl
        | some v => rw [hv] at hacc; exact absurd rfl hacc
      have htw : (d :: ds).takeWhile (fun d => (mainEvaluate.extractFloat d).isSome) = [] := by
        rw [List.takeWhile_cons, if_neg hacc]
      rw [htw]
      simp [mainEvaluate.initializeParamsLoop, hnone]

theorem takeWhile_eq_self_of_forall {α : Type} (p : α → Bool) (l : List α)
    (h : ∀ a ∈ l, p a = true) : l.takeWhile p = l := by
  induction l with
  | nil => rfl
  | cons a as ih =>
    rw [List.takeWhile_cons, if_pos (h a (List.mem_cons_self a as)),
      ih (fun b hb => h b (List.mem_cons_of_mem a hb))]

/-- C12 (as amended).  For every vector `x` of length `n` and every parameter file
holding `k ≤ n` numbers, `initializeParams` returns `x` with entries `0..j-1`
replaced, in file order, by the file's first `j` numbers read at single precision
and widened to `double` (which keeps the number read), where `j` counts the
numbers before the first one that does not fit a `float`, and with every entry
at index `≥ j` unchanged; `j = k` when every number of the file fits a `float`. -/
theorem C12_initializeParams_frame (x : List FP) (fin : List Decimal)
    (hk : fin.length ≤ x.length) :
    mainEvaluate.initializeParams fin x
      = some (mainEvaluate.replacedParams
          (fin.takeWhile (fun d => (mainEvaluate.extractFloat d).isSome)) x) ∧
    ((∀ d ∈ fin, mainEvaluate.extractFloat d ≠ none) →
      mainEvaluate.initializeParams fin x = some (mainEvaluate.replacedParams fin x)) ∧
    (∀ d ∈ fin, (readFloat d).representable binary32 ∧
      (convert binary64 (readFloat d)).toRat = (readFloat d).toRat) := by
  have hlen : (fin.takeWhile (fun d => (mainEvaluate.extractFloat d).isSome)).length
      ≤ x.length := le_trans (List.takeWhile_sublist _).length_le hk
  have e := initializeParamsLoop_numbers fin [] x hlen
  have hmain : mainEvaluate.initializeParams fin x
      = some (mainEvaluate.replacedParams
          (fin.takeWhile (fun d => (mainEvaluate.extractFloat d).isSome)) x) := by
    simpa [mainEvaluate.initializeParams, mainEvaluate.replacedParams] using e
  refine ⟨hmain, ?_, fun d _ => ⟨readFloat_representable d,
    convert_binary64_of_binary32 _ (readFloat_representable d)⟩⟩
  intro hfit
  have hall : fin.takeWhile (fun d => (mainEvaluate.extractFloat d).isSome) = fin :=
    takeWhile_eq_self_of_forall _ fin (fun d hd => by
      cases hv : mainEvaluate.extractFloat d with
      | none => exact absurd hv (hfit d hd)
      | some v => rfl)
  rw [hmain, hall]

/-- C12 (as amended) on a vector of four zeros and the file `1.5 -2`. -/
theorem C12_initializeParams_frame_witness :
    [Decimal.mk false 15 (-1), Decimal.mk true 2 0].length
      ≤ [FP.zero false, FP.zero false, FP.zero false, FP.zero false].length ∧
    (∀ d ∈ [Decimal.mk false 15 (-1), Decimal.mk true 2 0],
      mainEvaluate.extractFloat d ≠ none) ∧
    mainEvaluate.initializeParams [Decimal.mk false 15 (-1), Decimal.mk true 2 0]
        [FP.zero false, FP.zero false, FP.zero false, FP.zero false]
      = some (mainEvaluate.replacedParams [Decimal.mk false 15 (-1), Decimal.mk true 2 0]
          [FP.zero false, FP.zero false, FP.zero false, FP.zero false]) :=
  ⟨by decide, by decide,
    (C12_initializeParams_frame [FP.zero false, FP.zero false, FP.zero false, FP.zero false]
      [Decimal.mk false 15 (-1), Decimal.mk true 2 0] (by decide)).2.1 (by decide)⟩

/-- C12 as stated fails on the file `1e39 9` and the vector `(0, 0)`: the file holds
two numbers, the first beyond the range of `float`; the extraction of `1e39`
fails, the loop ends, and the vector is returned unchanged, so entry 1 is still
`0` and not the `9` of the file. -/
theorem C12_number_beyond_float_stops_reading :
    [Decimal.mk false 1 39, Decimal.mk false 9 0].length
      ≤ [FP.zero false, FP.zero false].length ∧
    mainEvaluate.initializeParams [Decimal.mk false 1 39, Decimal.mk false 9 0]
        [FP.zero false, FP.zero false]
      = some [FP.zero false, FP.zero false] ∧
    mainEvaluate.replacedParams [Decimal.mk false 1 39, Decimal.mk false 9 0]
        [FP.zero false, FP.zero false]
      = [FP.inf false, FP.fin false (9 * 2 ^ 49) (-49)] ∧
    mainEvaluate.initializeParams [Decimal.mk false 1 39, Decimal.mk false 9 0]
        [FP.zero false, FP.zero false]
      ≠ some (mainEvaluate.replacedParams [Decimal.mk false 1 39, Decimal.mk false 9 0]
          [FP.zero false, FP.zero false]) := by
  decide

/-! ### Decimal text -/

theorem digitChar_toNat (k : Nat) (hk : k < 10) : (Driver.digitChar k).toNat - 48 = k := by
  interval_cases k <;> decide

theorem digitChar_ne (k : Nat) (hk : k < 10) :
    Driver.digitChar k ≠ '.' ∧ Driver.digitChar k ≠ '/' ∧ Driver.digitChar k ≠ '-' := by
  interval_cases k <;> decide

theorem decimalAux_mem (fuel : Nat) :
    ∀ (n : Nat) (acc : List Char), ∀ c ∈ Driver.decimalAux fuel n acc,
      c ∈ acc ∨ ∃ k, k < 10 ∧ c = Driver.digitChar k := by
  induction fuel with
  | zero => intro n acc c hc; exact Or.inl hc
  | succ f ih =>
    intro n acc c hc
    simp only [Driver.decimalAux] at hc
    have hlt : n % 10 < 10 := Nat.mod_lt _ (by decide)
    split_ifs at hc with h0
    · rcases List.mem_cons.mp hc with rfl | hc
      · exact Or.inr ⟨n % 10, hlt, rfl⟩
      · exact Or.inl hc
    · rcases ih _ _ c hc with hc | hc
      · rcases List.mem_cons.mp hc with rfl | hc
        · exact Or.inr ⟨n % 10, hlt, rfl⟩
        · exact Or.inl hc
      · exact Or.inr hc

theorem decimalAux_head (fuel : Nat) :
    ∀ (n : Nat) (acc : List Char),
      ∃ k, k < 10 ∧ ∃ tl, Driver.decimalAux (fuel + 1) n acc = Driver.digitChar k :: tl := by
  induction fuel with
  | zero =>
    intro n acc
    refine ⟨n % 10, Nat.mod_lt _ (by decide), acc, ?_⟩
    simp [Driver.decimalAux]
  | succ f ih =>
    intro n acc
    rw [Driver.decimalAux]
    split_ifs with h0
    · exact ⟨n % 10, Nat.mod_lt _ (by decide), acc, rfl⟩
    · exact ih _ _

theorem decimalValue_decimalAux (fuel : Nat) :
    ∀ (n : Nat) (acc : List Char), n < fuel →
      (Driver.decimalAux fuel n acc).foldl (fun v c => 10 * v + (c.toNat - 48)) 0
        = acc.foldl (fun v c => 10 * v + (c.toNat - 48)) n := by
  induction fuel with
  | zero => intro n acc h; omega
  | succ f ih =>
    intro n acc hlt
    have hmod : n % 10 < 10 := Nat.mod_lt _ (by decide)
    simp only [Driver.decimalAux]
    split_ifs with h0
    · have hn : n % 10 = n := by omega
      have hd := digitChar_toNat _ hmod
      rw [hn] at hd
      simp only [List.foldl_cons, hn, hd, Nat.mul_zero, Nat.zero_add]
    · have hdiv : n / 10 < f := by omega
      rw [ih (n / 10) _ hdiv]
      have hn : 10 * (n / 10) + n % 10 = n := Nat.div_add_mod n 10
      simp only [List.foldl_cons, digitChar_toNat _ hmod, hn]

theorem decimalValue_decimal (n : Nat) : Driver.decimalValue (Driver.decimal n) = n := by
  simp only [Driver.decimalValue, Driver.decimal]
  rw [decimalValue_decimalAux (n + 1) n [] (Nat.lt_succ_self n)]
  rfl

theorem decimal_injective (a b : Nat) (h : Driver.decimal a = Driver.decimal b) : a = b := by
  have := congrArg Driver.decimalValue h
  rwa [decimalValue_decimal, decimalValue_decimal] at this

theorem decimal_head_ne_minus (n : Nat) (tl : List Char) : Driver.decimal n ≠ '-' :: tl := by
  obtain ⟨k, hk, tl1, e⟩ := decimalAux_head n n []
  intro h
  rw [Driver.decimal, e] at h
  exact (digitChar_ne k hk).2.2 (List.cons.inj h).1

/-- The decimal text determines the integer. -/
theorem to_string_injective (a b : Int) (h : Driver.to_string a = Driver.to_string b) :
    a = b := by
  unfold Driver.to_string at h
  by_cases ha : a < 0 <;> by_cases hb : b < 0
  · simp only [if_pos ha, if_pos hb] at h
    have := decimal_injective _ _ (List.cons.inj h).2
    omega
  · simp only [if_pos ha, if_neg hb] at h
    exact absurd h.symm (decimal_head_ne_minus _ _)
  · simp only [if_neg ha, if_pos hb] at h
    exact absurd h (decimal_head_ne_minus _ _)
  · simp only [if_neg ha, if_neg hb] at h
    have := decimal_injective _ _ h
    omega

/-- The decimal text has neither a period nor a slash. -/
theorem to_string_chars (d : Int) : '.' ∉ Driver.to_string d ∧ '/' ∉ Driver.to_string d := by
  have key : ∀ c ∈ Driver.to_string d, c = '-' ∨ ∃ k, k < 10 ∧ c = Driver.digitChar k := by
    intro c hc
    unfold Driver.to_string at hc
    have hdec : ∀ c ∈ Driver.decimal d.natAbs, ∃ k, k < 10 ∧ c = Driver.digitChar k := by
      intro c hc
      rcases decimalAux_mem _ _ _ c hc with h | h
      · cases h
      · exact h
    split_ifs at hc
    · rcases List.mem_cons.mp hc with rfl | hc
      · exact Or.inl rfl
      · exact Or.inr (hdec c hc)
    · exact Or.inr (hdec c hc)
  constructor
  · intro hmem
    rcases key _ hmem with h | ⟨k, hk, h⟩
    · exact absurd h (by decide)
    · exact (digitChar_ne k hk).1 h.symm
  · intro hmem
    rcases key _ hmem with h | ⟨k, hk, h⟩
    · exact absurd h (by decide)
    · exact (digitChar_ne k hk).2.1 h.symm

/-! ### Path members on a pathname `dir ++ file` -/

theorem lastComponent_append (dir f : List Char) (hdir : dir = [] ∨ ∃ b, dir = b ++ ['/'])
    (hf : '/' ∉ f) : FsPath.lastComponent (dir ++ f) = f := by
  unfold FsPath.lastComponent
  have hall : ∀ a ∈ f.reverse, (a != '/') = true := by
    intro a ha
    rw [List.mem_reverse] at ha
    simp only [bne_iff_ne, ne_eq]
    rintro rfl
    exact hf ha
  rw [List.reverse_append, List.takeWhile_append_of_pos hall]
  rcases hdir with rfl | ⟨b, rfl⟩
  · simp
  · simp

theorem directoryPart_append (dir f : List Char) (hdir : dir = [] ∨ ∃ b, dir = b ++ ['/'])
    (hf : '/' ∉ f) : FsPath.directoryPart (dir ++ f) = dir := by
  unfold FsPath.directoryPart
  have hall : ∀ a ∈ f.reverse, (a != '/') = true := by
    intro a ha
    rw [List.mem_reverse] at ha
    simp only [bne_iff_ne, ne_eq]
    rintro rfl
    exact hf ha
  rw [List.reverse_append, List.dropWhile_append_of_pos hall]
  rcases hdir with rfl | ⟨b, rfl⟩
  · simp
  · simp

theorem filename_append (dir f : List Char) (hdir : dir = [] ∨ ∃ b, dir = b ++ ['/'])
    (hf0 : f ≠ []) (hf : '/' ∉ f) : FsPath.filename (dir ++ f) = f := by
  unfold FsPath.filename
  have hne : dir ++ f ≠ [] := by
    intro h
    exact hf0 (List.append_eq_nil.mp h).2
  rw [if_neg hne, lastComponent_append dir f hdir hf, if_pos hf0]

/-- The extension of a file name `s ++ e` whose stem `s` is non-empty and has no
period, `e` being empty or a period followed by period-free text, is `e`. -/
theorem extension_append (dir s e : List Char) (hdir : dir = [] ∨ ∃ b, dir = b ++ ['/'])
    (hs0 : s ≠ []) (hs1 : '/' ∉ s) (hs2 : '.' ∉ s)
    (he : e = [] ∨ ∃ e1, e = '.' :: e1 ∧ '.' ∉ e1 ∧ '/' ∉ e1) :
    FsPath.extension (dir ++ s ++ e) = e := by
  have hfe : '/' ∉ s ++ e := by
    rcases he with rfl | ⟨e1, rfl, _, h2⟩
    · simpa using hs1
    · simp only [List.mem_append, List.mem_cons, not_or]
      exact ⟨hs1, by decide, h2⟩
  have hne : s ++ e ≠ [] := by
    intro h
    exact hs0 (List.append_eq_nil.mp h).1
  have hfile : FsPath.filename (dir ++ s ++ e) = s ++ e := by
    rw [List.append_assoc]
    exact filename_append dir (s ++ e) hdir hne hfe
  unfold FsPath.extension
  simp only [hfile]
  rcases he with rfl | ⟨e1, rfl, h1, _⟩
  · have : '.' ∉ s ++ [] := by simpa using hs2
    rw [if_neg (fun h => this h.1)]
  · obtain ⟨c, s1, rfl⟩ := List.exists_cons_of_ne_nil hs0
    have hc : c ≠ '.' := by
      intro h
      exact hs2 (h ▸ List.mem_cons_self c s1)
    have hcond : '.' ∈ c :: s1 ++ '.' :: e1 ∧ c :: s1 ++ '.' :: e1 ≠ ['.'] ∧
        c :: s1 ++ '.' :: e1 ≠ ['.', '.'] := by
      refine ⟨by simp, ?_, ?_⟩
      · intro h
        exact hc (List.cons.inj h).1
      · intro h
        exact hc (List.cons.inj h).1
    rw [if_pos hcond]
    have hall : ∀ a ∈ e1.reverse, (a != '.') = true := by
      intro a ha
      rw [List.mem_reverse] at ha
      simp only [bne_iff_ne, ne_eq]
      rintro rfl
      exact h1 ha
    rw [List.reverse_append, List.reverse_cons, List.append_assoc,
      List.takeWhile_append_of_pos hall]
    simp

theorem replace_extension_append (dir s e r : List Char)
    (hdir : dir = [] ∨ ∃ b, dir = b ++ ['/'])
    (hs0 : s ≠ []) (hs1 : '/' ∉ s) (hs2 : '.' ∉ s)
    (he : e = [] ∨ ∃ e1, e = '.' :: e1 ∧ '.' ∉ e1 ∧ '/' ∉ e1) :
    FsPath.replace_extension (dir ++ s ++ e) r =
      dir ++ s ++ (match r with
        | [] => []
        | c :: _ => if c = '.' then [] else ['.']) ++ r := by
  unfold FsPath.replace_extension
  simp only [extension_append dir s e hdir hs0 hs1 hs2 he]
  have hlen : (dir ++ s ++ e).length - e.length = (dir ++ s).length := by
    simp only [List.length_append]; omega
  rw [hlen, List.take_left' rfl]
  cases r <;> rfl

theorem replace_filename_append (dir s n : List Char)
    (hdir : dir = [] ∨ ∃ b, dir = b ++ ['/']) (hs0 : s ≠ []) (hs1 : '/' ∉ s) :
    FsPath.replace_filename (dir ++ s) n = dir ++ n := by
  unfold FsPath.replace_filename FsPath.remove_filename
  rw [lastComponent_append dir s hdir hs1, if_pos hs0, directoryPart_append dir s hdir hs1]
  unfold FsPath.append
  rcases hdir with rfl | ⟨b, rfl⟩
  · simp
  · simp

/-- On an input path whose file name has a non-empty, period-free stem, the
drivers' cache file is the input path without its final extension, followed by
`_`, the decimal text of the density and `.dat`. -/
theorem cachePath_plain_stem (dir s e : List Char) (d : Int)
    (hdir : dir = [] ∨ ∃ b, dir = b ++ ['/'])
    (hs0 : s ≠ []) (hs1 : '/' ∉ s) (hs2 : '.' ∉ s)
    (he : e = [] ∨ ∃ e1, e = '.' :: e1 ∧ '.' ∉ e1 ∧ '/' ∉ e1) :
    Driver.cachePath (dir ++ s ++ e) d
        = dir ++ s ++ ['_'] ++ Driver.to_string d ++ ['.', 'd', 'a', 't'] ∧
    Driver.cachePath (dir ++ s ++ e) d = Driver.expectedCachePath (dir ++ s ++ e) d := by
  have h1 : FsPath.replace_extension (dir ++ s ++ e) [] = dir ++ s := by
    rw [replace_extension_append dir s e [] hdir hs0 hs1 hs2 he]; simp
  have h2 : FsPath.filename (dir ++ s) = s := filename_append dir s hdir hs0 hs1
  obtain ⟨hd1, hd2⟩ := to_string_chars d
  have hn0 : s ++ ['_'] ++ Driver.to_string d ≠ [] := by
    intro h
    exact hs0 (List.append_eq_nil.mp (List.append_eq_nil.mp h).1).1
  have hn1 : '/' ∉ s ++ ['_'] ++ Driver.to_string d := by
    simp only [List.mem_append, List.mem_singleton, not_or]
    exact ⟨⟨hs1, by decide⟩, hd2⟩
  have hn2 : '.' ∉ s ++ ['_'] ++ Driver.to_string d := by
    simp only [List.mem_append, List.mem_singleton, not_or]
    exact ⟨⟨hs2, by decide⟩, hd1⟩
  have h3 := replace_extension_append dir (s ++ ['_'] ++ Driver.to_string d) []
    ['.', 'd', 'a', 't'] hdir hn0 hn1 hn2 (Or.inl rfl)
  have hmain : Driver.cachePath (dir ++ s ++ e) d
      = dir ++ s ++ ['_'] ++ Driver.to_string d ++ ['.', 'd', 'a', 't'] := by
    unfold Driver.cachePath
    simp only [h1, h2, replace_filename_append dir s _ hdir hs0 hs1]
    rw [List.append_nil] at h3
    rw [h3]
    simp
  refine ⟨hmain, ?_⟩
  rw [hmain, Driver.expectedCachePath, h1]

/-- On such input paths two different densities give two different cache files. -/
theorem cachePath_plain_stem_injective (dir s e : List Char) (d1 d2 : Int)
    (hdir : dir = [] ∨ ∃ b, dir = b ++ ['/'])
    (hs0 : s ≠ []) (hs1 : '/' ∉ s) (hs2 : '.' ∉ s)
    (he : e = [] ∨ ∃ e1, e = '.' :: e1 ∧ '.' ∉ e1 ∧ '/' ∉ e1)
    (hpath : Driver.cachePath (dir ++ s ++ e) d1 = Driver.cachePath (dir ++ s ++ e) d2) :
    d1 = d2 := by
  rw [(cachePath_plain_stem dir s e d1 hdir hs0 hs1 hs2 he).1,
    (cachePath_plain_stem dir s e d2 hdir hs0 hs1 hs2 he).1] at hpath
  have h1 := List.append_cancel_right hpath
  exact to_string_injective d1 d2 (List.append_cancel_left h1)

/-- C11 (the code on a dotted stem).  For the input path `hand.v2.urdf` the cache
file computed is `hand.dat` for density 10 and for density 20 alike, not
`hand.v2_10.dat` and `hand.v2_20.dat`: the final `replace_extension(".dat")`
replaces everything from the period of the stem on. -/
theorem C11_dotted_stem_collides :
    Driver.cachePath "hand.v2.urdf".toList 10 = "hand.dat".toList ∧
    Driver.cachePath "hand.v2.urdf".toList 20 = "hand.dat".toList ∧
    Driver.expectedCachePath "hand.v2.urdf".toList 10 = "hand.v2_10.dat".toList ∧
    Driver.expectedCachePath "hand.v2.urdf".toList 20 = "hand.v2_20.dat".toList := by
  decide

end Grasp
